import Mathlib

/-!
Verification of the BrowserBox script-embedding tool (`embed_scripts.py`).

The development shallowly embeds the tool over `List Char`: text is a list of
characters, the two `re.sub` patch patterns are modelled by greedy backtracking
matchers, and a run of the tool is a pure function from a directory listing to
an event trace (reads, writes, prints).
-/

namespace BrowserBox

/-- Characters matched by Python's `\s` regex class (and stripped by
`str.strip()`): ASCII whitespace plus the Unicode whitespace code points. -/
def pyWS (c : Char) : Bool :=
  let n := c.toNat
  n = 0x20 || n = 0x9 || n = 0xa || n = 0xd || n = 0xb || n = 0xc ||
  (0x1c ≤ n && n ≤ 0x1f) || n = 0x85 || n = 0xa0 || n = 0x1680 ||
  (0x2000 ≤ n && n ≤ 0x200a) || n = 0x2028 || n = 0x2029 || n = 0x202f ||
  n = 0x205f || n = 0x3000

/-- Length of the maximal prefix of `s` all of whose characters satisfy `p`.
This is how far a greedy `p*` (or `p+`) quantifier initially reaches. -/
def maxRun (p : Char → Bool) : List Char → Nat
  | [] => 0
  | c :: rest => if p c then maxRun p rest + 1 else 0

/-- Greedy backtracking over the amount a quantifier consumes: try `k` first,
then `k - 1`, ..., down to `minK`, returning the first success of `cont`.
This mirrors how a greedy regex quantifier backtracks. -/
def tryDown (cont : Nat → Option Nat) (minK : Nat) : Nat → Option Nat
  | 0 => if minK = 0 then cont 0 else none
  | k + 1 =>
    if k + 1 < minK then none
    else
      match cont (k + 1) with
      | some r => some r
      | none => tryDown cont minK k

/-- The opening brace character (code 123). -/
def lbrace : Char := Char.ofNat 123

/-- The closing brace character (code 125). -/
def rbrace : Char := Char.ofNat 125

/-- Characters matched by the regex class `[^}]` (anything but a closing
brace, newlines included). -/
def notRBrace (c : Char) : Bool := !(c == rbrace)

/-- Characters matched by `.` without `re.DOTALL`: anything but a newline. -/
def notNL (c : Char) : Bool := !(c == '\n')

/-- Literal comment line opening the trailing script-end anchor
(`        // Start the app`). -/
def litStartApp : List Char := "        // Start the app".toList

/-- Literal initialization call inside the script-end anchor (`init();`). -/
def litInitCall : List Char := "init();".toList

/-- Literal closing tag of the scripting region (`    </script>`), the second
capture group of the script-end pattern. -/
def litScriptEnd : List Char := "    </script>".toList

/-- Literal opening of the init routine (`function init() {`). -/
def litInitOpen : List Char := "function init() \x7b".toList

/-- Literal final log statement of the init routine
(`log('App initialized and ready');`), the second capture group of the
init-function pattern. -/
def litInitLog : List Char := "log('App initialized and ready');".toList

/-- Matcher for the script-end pattern
`(        // Start the app\s+init\(\);\s+)(    </script>)` anchored at the
start of `s`.  Returns `(group-1 length, total match length)` on success.
Both `\s+` quantifiers are greedy with backtracking, via `tryDown`. -/
def matchScriptEnd (s : List Char) : Option (Nat × Nat) :=
  if litStartApp.isPrefixOf s then
    let t1 := s.drop litStartApp.length
    match tryDown (fun k =>
        let t2 := t1.drop k
        if litInitCall.isPrefixOf t2 then
          let t3 := t2.drop litInitCall.length
          match tryDown (fun k2 =>
              if litScriptEnd.isPrefixOf (t3.drop k2) then some k2 else none)
            1 (maxRun pyWS t3) with
          | some k2 => some (k + litInitCall.length + k2)
          | none => none
        else none)
      1 (maxRun pyWS t1) with
    | some inner =>
      some (litStartApp.length + inner, litStartApp.length + inner + litScriptEnd.length)
    | none => none
  else none

/-- Matcher for the init-function pattern
`(function init\(\) {[^}]*)(log\('App initialized and ready'\);)` anchored at
the start of `s`.  Returns `(group-1 length, total match length)`; the greedy
`[^}]*` backtracks from the longest brace-free run. -/
def matchInitAnchor (s : List Char) : Option (Nat × Nat) :=
  if litInitOpen.isPrefixOf s then
    let t1 := s.drop litInitOpen.length
    match tryDown (fun k =>
        if litInitLog.isPrefixOf (t1.drop k) then some k else none)
      0 (maxRun notRBrace t1) with
    | some k => some (litInitOpen.length + k, litInitOpen.length + k + litInitLog.length)
    | none => none
  else none

/-- Left-to-right scan of `re.sub`: at each position try the matcher `m`; on a
match of total length `tot` with group-1 length `g1`, emit
`repl group1 group2` and continue scanning after the match (the replacement is
not rescanned); otherwise emit one character and move on.  A (never occurring
for our patterns) empty match is treated as no match so the scan advances. -/
def subScanF (m : List Char → Option (Nat × Nat))
    (repl : List Char → List Char → List Char) : Nat → List Char → List Char
  | _, [] => []
  | 0, s => s
  | fuel + 1, c :: rest =>
    match m (c :: rest) with
    | some (g1, tot) =>
      if tot = 0 then c :: subScanF m repl fuel rest
      else
        repl ((c :: rest).take g1) (((c :: rest).drop g1).take (tot - g1)) ++
          subScanF m repl fuel ((c :: rest).drop tot)
    | none => c :: subScanF m repl fuel rest

/-- Tail-recursive list length (so that long texts evaluate in constant
stack). -/
def lenTR : List Char → Nat → Nat
  | [], acc => acc
  | _ :: rest, 0 => lenTR rest 1
  | _ :: rest, acc + 1 => lenTR rest (acc + 2)

/-- The scan of `re.sub` over the whole text (each step consumes at least one
character, so the text length is enough fuel for `subScanF`). -/
def subScan (m : List Char → Option (Nat × Nat))
    (repl : List Char → List Char → List Char) (s : List Char) : List Char :=
  subScanF m repl (lenTR s 0) s

/-- Per-script record assembled by `collect_python_scripts` (lines 50-55):
base name, base64-encoded content, and the two magic-comment lists. -/
structure ScriptInfo where
  name : List Char
  content_b64 : List Char
  userFiles : List (List Char)
  processFiles : List (List Char)
deriving DecidableEq

/-- Lowercase hexadecimal digits. -/
def hexDigits : List Char := "0123456789abcdef".toList

/-- Four lowercase hex digits of `n % 65536`, as in a JSON `\u` escape. -/
def toHex4 (n : Nat) : List Char :=
  [hexDigits.getD (n / 4096 % 16) '0', hexDigits.getD (n / 256 % 16) '0',
   hexDigits.getD (n / 16 % 16) '0', hexDigits.getD (n % 16) '0']

/-- JSON escape of one character, as `json.dumps` does with its default
`ensure_ascii=True`: quote and backslash get a backslash escape, the five
short control escapes are used, all other control or non-ASCII characters
become `\uxxxx` escapes (a surrogate pair beyond the BMP). -/
def jsonEscapeChar (c : Char) : List Char :=
  if c = '"' then ['\\', '"']
  else if c = '\\' then ['\\', '\\']
  else if c = '\n' then ['\\', 'n']
  else if c = '\r' then ['\\', 'r']
  else if c = '\t' then ['\\', 't']
  else if c.toNat = 8 then ['\\', 'b']
  else if c.toNat = 12 then ['\\', 'f']
  else if c.toNat < 0x20 || 0x7e < c.toNat then
    if c.toNat < 0x10000 then '\\' :: 'u' :: toHex4 c.toNat
    else
      ('\\' :: 'u' :: toHex4 (0xd800 + (c.toNat - 0x10000) / 1024)) ++
        ('\\' :: 'u' :: toHex4 (0xdc00 + (c.toNat - 0x10000) % 1024))
  else [c]

/-- JSON string literal for `s`. -/
def jsonStr (s : List Char) : List Char :=
  '"' :: (s.map jsonEscapeChar).flatten ++ ['"']

/-- A run of `n` spaces. -/
def spaces (n : Nat) : List Char := List.replicate n ' '

/-- Rendering by `json.dumps` of a list of strings appearing at indentation
level `ind` with `indent=8`: empty lists render as `[]`, otherwise one
element per line indented `ind + 8`, closing bracket at `ind`. -/
def jsonStrList (ind : Nat) (xs : List (List Char)) : List Char :=
  match xs with
  | [] => ['[', ']']
  | _ =>
    '[' :: '\n' ::
      (List.intercalate [',', '\n'] (xs.map (fun x => spaces (ind + 8) ++ jsonStr x))) ++
      '\n' :: spaces ind ++ [']']

/-- Rendering by `json.dumps` of one script record (a dict appearing at
indentation level 8), keys in insertion order. -/
def jsonScript (r : ScriptInfo) : List Char :=
  lbrace :: '\n' ::
    (spaces 16 ++ jsonStr ("name".toList) ++ ':' :: ' ' :: jsonStr r.name ++
      [',', '\n'] ++
     spaces 16 ++ jsonStr ("content_b64".toList) ++ ':' :: ' ' :: jsonStr r.content_b64 ++
      [',', '\n'] ++
     spaces 16 ++ jsonStr ("userFiles".toList) ++ ':' :: ' ' :: jsonStrList 16 r.userFiles ++
      [',', '\n'] ++
     spaces 16 ++ jsonStr ("processFiles".toList) ++ ':' :: ' ' :: jsonStrList 16 r.processFiles ++
      ['\n']) ++
    spaces 8 ++ [rbrace]

/-- Rendering `json.dumps(scripts, indent=8)` for the full record list. -/
def jsonDumpScripts (scripts : List ScriptInfo) : List Char :=
  match scripts with
  | [] => ['[', ']']
  | _ =>
    '[' :: '\n' ::
      (List.intercalate [',', '\n'] (scripts.map (fun r => spaces 8 ++ jsonScript r))) ++
      '\n' :: [']']

/-- The generated data declaration `scripts_js` (line 73):
`const embeddedScripts = <json>;`. -/
def scriptsJs (scripts : List ScriptInfo) : List Char :=
  "const embeddedScripts = ".toList ++ jsonDumpScripts scripts ++ [';']

/-- The fixed loader routine `decoder_function` (lines 76-125), verbatim
(braces written as escapes). -/
def decoderFunction : List Char := String.toList (String.join [
  "",
  "\n        // Function to decode base64 embedded scripts",
  "\n        function loadEmbeddedScripts() \x7b",
  "\n            if (typeof embeddedScripts === 'undefined' || embeddedScripts.length === 0) \x7b",
  "\n                return;",
  "\n            \x7d",
  "\n            ",
  "\n            log(`Loading $\x7bembeddedScripts.length\x7d embedded Python script(s)...`);",
  "\n            ",
  "\n            embeddedScripts.forEach(scriptData => \x7b",
  "\n                try \x7b",
  "\n                    // Decode base64 content",
  "\n                    const content = atob(scriptData.content_b64);",
  "\n                    ",
  "\n                    // Create a File-like object for the script",
  "\n                    const blob = new Blob([content], \x7b type: 'text/plain' \x7d);",
  "\n                    const file = new File([blob], scriptData.name, \x7b ",
  "\n                        lastModified: new Date().getTime() ",
  "\n                    \x7d);",
  "\n                    ",
  "\n                    // Add to pythonScripts array if not already present",
  "\n                    if (!pythonScripts.some(ps => ps.name === scriptData.name)) \x7b",
  "\n                        const newScript = \x7b",
  "\n                            name: scriptData.name,",
  "\n                            content: content,",
  "\n                            userFiles: scriptData.userFiles || [],",
  "\n                            processFiles: scriptData.processFiles || [],",
  "\n                            fileObject: file,",
  "\n                            id: `py-$\x7bscriptData.name.replace(/[^a-zA-Z0-9]/g, '-')\x7d`",
  "\n                        \x7d;",
  "\n                        pythonScripts.push(newScript);",
  "\n                        log(`Loaded embedded script: $\x7bscriptData.name\x7d (User files: $\x7bnewScript.userFiles.join(', ') || 'none'\x7d, Process files: $\x7bnewScript.processFiles.join(', ') || 'none'\x7d)`);",
  "\n                    \x7d",
  "\n                \x7d catch (error) \x7b",
  "\n                    log(`Error loading embedded script $\x7bscriptData.name\x7d: $\x7berror.message\x7d`, 'error');",
  "\n                \x7d",
  "\n            \x7d);",
  "\n            ",
  "\n            // Sort scripts and update UI",
  "\n            pythonScripts.sort((a, b) => a.name.localeCompare(b.name));",
  "\n            updateScriptsList();",
  "\n            updateFileDropZone();",
  "\n            updateRunButtonState();",
  "\n            ",
  "\n            // Hide script zone instructions since we have scripts",
  "\n            const scriptZoneInstructions = document.getElementById('scriptZoneInstructions');",
  "\n            if (scriptZoneInstructions) \x7b",
  "\n                scriptZoneInstructions.style.display = 'none';",
  "\n            \x7d",
  "\n        \x7d"])

/-- The text block that insertion A places in front of the matched script-end
anchor: the comment line, the data declaration, the loader routine and the
surrounding blank lines of the f-string at lines 143-148. -/
def insAText (scripts : List ScriptInfo) : List Char :=
  "        // Embedded Python Scripts Data\n        ".toList ++ scriptsJs scripts ++
    ('\n' :: '\n' :: decoderFunction) ++ "\n\n        ".toList

/-- Replacement function of the script-end substitution (`insert_embedded_code`,
lines 139-148): the generated block followed by both untouched groups. -/
def replScriptEnd (scripts : List ScriptInfo) (g1 g2 : List Char) : List Char :=
  insAText scripts ++ g1 ++ g2

/-- The loader invocation text that insertion B places between the two groups
of the init-function match (`replace_init`, lines 130-133). -/
def insBText : List Char := "loadEmbeddedScripts();\n            ".toList

/-- Replacement function of the init substitution (`replace_init`). -/
def replInit (g1 g2 : List Char) : List Char := g1 ++ insBText ++ g2

/-- The first `re.sub` (line 151): script-end substitution. -/
def applyScriptEndSub (scripts : List ScriptInfo) (html : List Char) : List Char :=
  subScan matchScriptEnd (replScriptEnd scripts) html

/-- The second `re.sub` (line 152): init substitution. -/
def applyInitSub (html : List Char) : List Char :=
  subScan matchInitAnchor replInit html

/-- The text transformation of `create_embedded_browserbox` (lines 127-152):
both substitutions, script-end first, then init. -/
def create_embedded_browserbox (scripts : List ScriptInfo) (html : List Char) : List Char :=
  applyInitSub (applyScriptEndSub scripts html)

/-- Case-insensitive character comparison, as `re.IGNORECASE` does on the
ASCII letters appearing in the marker patterns. -/
def lowerEq (a b : Char) : Bool := a.toLower == b.toLower

/-- Case-insensitive prefix test for a literal pattern. -/
def isPrefixOfCI : List Char → List Char → Bool
  | [], _ => true
  | _ :: _, [] => false
  | p :: ps, c :: cs => lowerEq p c && isPrefixOfCI ps cs

/-- Matcher for `#\s*<marker>\s*(.*)` anchored at the start of `s` with
`re.IGNORECASE`: a hash, greedy whitespace (newlines included), the marker
word case-insensitively, greedy whitespace again, then the rest-of-line
capture (`.` does not cross a newline).  Returns the captured group. -/
def matchMarkerAt (marker : List Char) (s : List Char) : Option (List Char) :=
  match s with
  | [] => none
  | c :: rest =>
    if c = '#' then
      match tryDown (fun k =>
          if isPrefixOfCI marker (rest.drop k) then some k else none)
        0 (maxRun pyWS rest) with
      | some k =>
        let t2 := (rest.drop k).drop marker.length
        let t3 := t2.drop (maxRun pyWS t2)
        some (t3.take (maxRun notNL t3))
      | none => none
    else none

/-- Model of `re.search`: the match at the leftmost possible start position. -/
def searchMarker (marker : List Char) : List Char → Option (List Char)
  | [] => none
  | c :: rest =>
    match matchMarkerAt marker (c :: rest) with
    | some v => some v
    | none => searchMarker marker rest

/-- Python `str.strip()`: drop leading and trailing whitespace. -/
def pyStrip (s : List Char) : List Char :=
  ((s.dropWhile pyWS).reverse.dropWhile pyWS).reverse

/-- The token cleanup `[f.strip() for f in v.split(',') if f.strip()]`:
split on commas, strip each token, drop empty tokens. -/
def cleanTokens (v : List Char) : List (List Char) :=
  ((v.splitOn ',').map pyStrip).filter (fun t => !t.isEmpty)

/-- Model of `parse_required_files` (lines 12-30): extract the `user_files` and
`process_files` lists from the magic comments.  The code guards with the
truthiness of `match.group(1)`, so an empty capture yields the empty list. -/
def parse_required_files (content : List Char) : List (List Char) × List (List Char) :=
  (match searchMarker ("user_files:".toList) content with
   | none => []
   | some v => if v.isEmpty then [] else cleanTokens v,
   match searchMarker ("process_files:".toList) content with
   | none => []
   | some v => if v.isEmpty then [] else cleanTokens v)

/-- The base64 alphabet. -/
def b64alphabet : List Char :=
  "ABCDEFGHIJKLMNOPQRSTUVWXYZabcdefghijklmnopqrstuvwxyz0123456789+/".toList

/-- Character for a six-bit group. -/
def b64char (n : Nat) : Char := b64alphabet.getD n '?'

/-- Index of a base64 character (`none` for a non-alphabet character). -/
def b64index (c : Char) : Option Nat := b64alphabet.indexOf? c

/-- Model of `base64.b64encode` over a byte list: big-endian three-byte groups become
four sextet characters, with `=` padding for a short final group. -/
def b64encode : List Nat → List Char
  | [] => []
  | [a] => [b64char (a / 4), b64char (a % 4 * 16), '=', '=']
  | [a, b] =>
    [b64char (a / 4), b64char (a % 4 * 16 + b / 16), b64char (b % 16 * 4), '=']
  | a :: b :: c :: rest =>
    b64char (a / 4) :: b64char (a % 4 * 16 + b / 16) ::
      b64char (b % 16 * 4 + c / 64) :: b64char (c % 64) :: b64encode rest

/-- Base64 decoding back to bytes (the browser-side `atob`): four characters
yield three bytes; a final group padded with one or two `=` yields two bytes
or one. -/
def b64decode : List Char → Option (List Nat)
  | [] => some []
  | c1 :: c2 :: c3 :: c4 :: rest =>
    if c3 = '=' && c4 = '=' && rest.isEmpty then
      (b64index c1).bind fun a => (b64index c2).map fun b => [a * 4 + b / 16]
    else if c4 = '=' && rest.isEmpty then
      (b64index c1).bind fun a => (b64index c2).bind fun b =>
        (b64index c3).map fun c => [a * 4 + b / 16, b % 16 * 16 + c / 4]
    else
      (b64index c1).bind fun a => (b64index c2).bind fun b =>
        (b64index c3).bind fun c => (b64index c4).bind fun d =>
          (b64decode rest).map fun tl =>
            (a * 4 + b / 16) :: (b % 16 * 16 + c / 4) :: (c % 4 * 64 + d) :: tl
  | _ => none

/-- UTF-8 encoding of one character (`str.encode('utf-8')`). -/
def utf8EncodeChar (c : Char) : List Nat :=
  let v := c.toNat
  if v < 0x80 then [v]
  else if v < 0x800 then [0xc0 + v / 64, 0x80 + v % 64]
  else if v < 0x10000 then [0xe0 + v / 4096, 0x80 + v / 64 % 64, 0x80 + v % 64]
  else [0xf0 + v / 262144, 0x80 + v / 4096 % 64, 0x80 + v / 64 % 64, 0x80 + v % 64]

/-- UTF-8 encoding of a text. -/
def utf8Encode (s : List Char) : List Nat := (s.map utf8EncodeChar).flatten

/-- Continuation-byte test. -/
def contByte (b : Nat) : Bool := 0x80 ≤ b && b < 0xc0

/-- Grab one UTF-8 continuation byte: its six payload bits and the rest. -/
def grabCont : List Nat → Option (Nat × List Nat)
  | [] => none
  | b :: r => if contByte b then some (b - 0x80, r) else none

/-- Decode one UTF-8 sequence from the front of a byte list, strictly:
rejects bad lead or continuation bytes, overlong forms, surrogates and
out-of-range values.  Returns the scalar value and the remaining bytes. -/
def utf8DecodeOne : List Nat → Option (Nat × List Nat)
  | [] => none
  | b :: rest =>
    if b < 0x80 then some (b, rest)
    else if b < 0xc2 then none
    else if b < 0xe0 then
      (grabCont rest).bind fun p => some ((b - 0xc0) * 64 + p.1, p.2)
    else if b < 0xf0 then
      (grabCont rest).bind fun p => (grabCont p.2).bind fun p2 =>
        if (b - 0xe0) * 4096 + p.1 * 64 + p2.1 < 0x800 ||
            (0xd800 ≤ (b - 0xe0) * 4096 + p.1 * 64 + p2.1 &&
              (b - 0xe0) * 4096 + p.1 * 64 + p2.1 < 0xe000) then none
        else some ((b - 0xe0) * 4096 + p.1 * 64 + p2.1, p2.2)
    else if b < 0xf5 then
      (grabCont rest).bind fun p => (grabCont p.2).bind fun p2 =>
        (grabCont p2.2).bind fun p3 =>
          if (b - 0xf0) * 262144 + p.1 * 4096 + p2.1 * 64 + p3.1 < 0x10000 ||
              0x10ffff < (b - 0xf0) * 262144 + p.1 * 4096 + p2.1 * 64 + p3.1 then
            none
          else some ((b - 0xf0) * 262144 + p.1 * 4096 + p2.1 * 64 + p3.1, p3.2)
    else none

/-- Fuel-indexed strict UTF-8 decoder; with fuel at least the byte count it
decodes the whole list (see `utf8Decode`). -/
def utf8DecodeAux : Nat → List Nat → Option (List Char)
  | _, [] => some []
  | 0, _ :: _ => none
  | fuel + 1, b :: rest =>
    match utf8DecodeOne (b :: rest) with
    | none => none
    | some (v, r) => (utf8DecodeAux fuel r).map fun tl => Char.ofNat v :: tl

/-- Strict UTF-8 decoding of a byte list back to text. -/
def utf8Decode (l : List Nat) : Option (List Char) := utf8DecodeAux l.length l

/-- Transport encoding applied by the Encoder (line 48):
`base64.b64encode(content.encode('utf-8'))`. -/
def transportEncode (s : List Char) : List Char := b64encode (utf8Encode s)

/-- Transport decoding: base64 back to the original bytes, then UTF-8 back to
the original text. -/
def transportDecode (t : List Char) : Option (List Char) :=
  (b64decode t).bind utf8Decode

/-- One directory entry: a file name and its content; `none` when reading
the file raises an error. -/
structure DirFile where
  name : String
  content : Option (List Char)
deriving DecidableEq

/-- Observable filesystem and console events of a run. -/
inductive Ev
  | readF (name : String)
  | writeF (name : String) (content : List Char)
  | printCollected (name : String)
  | printErrorReading (name : String)
  | printMissingTarget
  | printNoScripts
  | printCreated (outName : String) (count : Nat)
  | printSuccess (outName : String)
  | printScriptName (name : List Char)
  | printFinal (outName : String)
  | raiseErr
deriving DecidableEq

/-- The record built for one successfully read script (lines 44-57). -/
def mkRecord (name : String) (content : List Char) : ScriptInfo :=
  { name := name.toList
    content_b64 := transportEncode content
    userFiles := (parse_required_files content).1
    processFiles := (parse_required_files content).2 }

/-- Does a file name match the glob `*.py`, i.e. end with `.py`? -/
def matchesGlob (name : String) : Bool := (".py".toList).isSuffixOf name.toList

/-- Model of `collect_python_scripts` (lines 32-63): walk the directory listing in
order; for each `*.py` entry other than the tool's own source file, read it
and build a record, reporting and skipping entries whose read raises.
Returns the record list and the event trace. -/
def collect_python_scripts : List DirFile → List ScriptInfo × List Ev
  | [] => ([], [])
  | f :: rest =>
    if matchesGlob f.name && !(f.name == "embed_scripts.py") then
      match f.content with
      | some c =>
        let pr := collect_python_scripts rest
        (mkRecord f.name c :: pr.1,
         Ev.readF f.name :: Ev.printCollected f.name :: pr.2)
      | none =>
        let pr := collect_python_scripts rest
        (pr.1, Ev.readF f.name :: Ev.printErrorReading f.name :: pr.2)
    else collect_python_scripts rest

/-- Model of `os.path.exists` plus the later `open` for the fixed target, over the
directory listing. -/
def findFile (files : List DirFile) (target : String) : Option DirFile :=
  files.find? (fun f => f.name == target)

/-- The fixed input document name. -/
def inputName : String := "BrowserBox.html"

/-- The fixed output document name. -/
def outputName : String := "BrowserBox_with_scripts.html"

/-- Model of `main` (lines 161-183) as a pure function from the directory listing to
the event trace of the run: abort on a missing target; collect scripts;
abort with a notice when none; otherwise read the target, write the patched
output and report success. -/
def mainRun (files : List DirFile) : List Ev :=
  match findFile files inputName with
  | none => [Ev.printMissingTarget]
  | some tf =>
    let pr := collect_python_scripts files
    if pr.1.isEmpty then pr.2 ++ [Ev.printNoScripts]
    else
      match tf.content with
      | none => pr.2 ++ [Ev.readF inputName, Ev.raiseErr]
      | some html =>
        pr.2 ++
          [Ev.readF inputName,
           Ev.writeF outputName (create_embedded_browserbox pr.1 html),
           Ev.printCreated outputName pr.1.length,
           Ev.printSuccess outputName] ++
          pr.1.map (fun r => Ev.printScriptName r.name) ++
          [Ev.printFinal outputName]

/-- Insertion shape of claim C1: `out` is `doc` with the data-plus-loader
block inserted at exactly one position and the loader call inserted at
exactly one position; every other byte of `doc` is unchanged. -/
def insertedOnceEach (scripts : List ScriptInfo) (doc out : List Char) : Prop :=
  ∃ d1 d2 e1 e2 : List Char,
    doc = d1 ++ d2 ∧
    e1 ++ e2 = d1 ++ insAText scripts ++ d2 ∧
    out = e1 ++ insBText ++ e2

/-- A sample script record used by the concrete C1 texts. -/
def sampleScript : ScriptInfo :=
  { name := "a.py".toList
    content_b64 := "eCA9IDE=".toList
    userFiles := []
    processFiles := [] }

/-- A document with the usual layout: the init routine (closed by a brace)
followed by the trailing start-comment, init call and script close. -/
def docW : List Char :=
  String.toList ("<script>function init() \x7b\n  setup();\n  log('App initialized and ready');\n\x7d\n        // Start the app\n        init();\n    </script>")

/-- The same document split at the script-end match position (75). -/
def docW1 : List Char :=
  String.toList ("<script>function init() \x7b\n  setup();\n  log('App initialized and ready');\n\x7d\n")

def docW2 : List Char :=
  String.toList ("        // Start the app\n        init();\n    </script>")

/-- Tail-recursive scan checking that no position other than `i` (counting
from offset `k`) matches. -/
def noMatchOutsideChk (m : List Char → Option (Nat × Nat)) (i : Nat) :
    Nat → List Char → Bool
  | _, [] => true
  | k, c :: rest =>
    if !(k == i) && (m (c :: rest)).isSome then false
    else noMatchOutsideChk m i (k + 1) rest

/-- Does `pat` occur as a contiguous substring of `s`? -/
def containsSub (pat : List Char) : List Char → Bool
  | [] => pat.isEmpty
  | c :: rest => if pat.isPrefixOf (c :: rest) then true else containsSub pat rest

/-- A document that contains the script-end anchor exactly once and the
init-function anchor exactly once, but in which the init anchor's brace-free
span crosses the script-end insertion point. -/
def docCE : List Char :=
  String.toList ("function init() \x7b \n        // Start the app\n        init();\n    </script>\nlog('App initialized and ready');")

theorem lenTR_eq : ∀ (s : List Char) (acc : Nat), lenTR s acc = s.length + acc := by
  intro s
  induction s with
  | nil => intro acc; rw [lenTR]; simp
  | cons c rest ih =>
    intro acc
    match acc with
    | 0 =>
      rw [lenTR, ih]
      simp
    | acc + 1 =>
      rw [lenTR, ih]
      simp only [List.length_cons]
      omega

theorem subScan_unfold_len (m : List Char → Option (Nat × Nat))
    (repl : List Char → List Char → List Char) (s : List Char) :
    subScan m repl s = subScanF m repl s.length s := by
  rw [subScan, lenTR_eq, Nat.add_zero]

theorem subScanF_fuel (m : List Char → Option (Nat × Nat))
    (repl : List Char → List Char → List Char) :
    ∀ (f : Nat) (s : List Char), s.length ≤ f →
      subScanF m repl f s = subScanF m repl s.length s := by
  intro f
  induction f using Nat.strong_induction_on with
  | _ f ih =>
    intro s hl
    match f, s with
    | f, [] => rw [subScanF]; rw [subScanF]
    | 0, c :: rest => simp at hl
    | f + 1, c :: rest =>
      rw [subScanF, show (c :: rest).length = rest.length + 1 from rfl, subScanF]
      simp only [List.length_cons] at hl
      match hm : m (c :: rest) with
      | none =>
        dsimp only
        rw [ih f (by omega) rest (by omega)]
      | some (g1, tot) =>
        dsimp only
        by_cases ht : tot = 0
        · rw [if_pos ht, if_pos ht, ih f (by omega) rest (by omega)]
        · rw [if_neg ht, if_neg ht]
          have hlen : ((c :: rest).drop tot).length ≤ rest.length := by
            simp only [List.length_drop, List.length_cons]
            omega
          rw [ih f (by omega) _ (by omega), ih rest.length (by omega) _ hlen]

/-- Unfolding equation of `subScan` at a nonempty text. -/
theorem subScan_cons (m : List Char → Option (Nat × Nat))
    (repl : List Char → List Char → List Char) (c : Char) (rest : List Char) :
    subScan m repl (c :: rest) =
      match m (c :: rest) with
      | some (g1, tot) =>
        if tot = 0 then c :: subScan m repl rest
        else
          repl ((c :: rest).take g1) (((c :: rest).drop g1).take (tot - g1)) ++
            subScan m repl ((c :: rest).drop tot)
      | none => c :: subScan m repl rest := by
  rw [subScan_unfold_len, show (c :: rest).length = rest.length + 1 from rfl, subScanF]
  match hm : m (c :: rest) with
  | none =>
    dsimp only
    rw [← subScan_unfold_len]
  | some (g1, tot) =>
    dsimp only
    by_cases ht : tot = 0
    · rw [if_pos ht, if_pos ht, ← subScan_unfold_len]
    · rw [if_neg ht, if_neg ht]
      have hlen : ((c :: rest).drop tot).length ≤ rest.length := by
        simp only [List.length_drop, List.length_cons]
        omega
      rw [subScanF_fuel m repl rest.length _ hlen, ← subScan_unfold_len]

/-- If the matcher fails at every position of `s` (suffix-wise), `subScan`
leaves `s` unchanged. -/
theorem subScan_id (m : List Char → Option (Nat × Nat))
    (repl : List Char → List Char → List Char) :
    ∀ s : List Char, (∀ j, m (s.drop j) = none) → subScan m repl s = s := by
  intro s
  induction s with
  | nil => intro _; rfl
  | cons c rest ih =>
    intro h
    have h0 : m (c :: rest) = none := by simpa using h 0
    have hrest : subScan m repl rest = rest := by
      apply ih
      intro j
      simpa [List.drop_succ_cons] using h (j + 1)
    rw [subScan_cons, h0]
    dsimp only
    rw [hrest]

/-- If the matcher succeeds at exactly one position `i` of `s`, `subScan`
performs exactly one replacement there: the output is the prefix before the
match, the replacement applied to the two capture groups, and the untouched
suffix after the match. -/
theorem subScan_single (m : List Char → Option (Nat × Nat))
    (repl : List Char → List Char → List Char) (hnil : m [] = none) :
    ∀ (i : Nat) (s : List Char) (g1 tot : Nat),
      (∀ j, j ≠ i → m (s.drop j) = none) →
      m (s.drop i) = some (g1, tot) → 0 < tot →
      subScan m repl s =
        s.take i ++
          repl ((s.drop i).take g1) (((s.drop i).drop g1).take (tot - g1)) ++
          s.drop (i + tot) := by
  intro i
  induction i with
  | zero =>
    intro s g1 tot h hi htot
    match s with
    | [] => rw [List.drop_nil] at hi; rw [hnil] at hi; exact absurd hi (by simp)
    | c :: rest =>
      rw [List.drop_zero] at hi
      have htail : subScan m repl ((c :: rest).drop tot) = (c :: rest).drop tot := by
        apply subScan_id
        intro j
        rw [List.drop_drop]
        exact h (tot + j) (by omega)
      rw [subScan_cons, hi]
      simp only [Nat.zero_add, List.take_zero, List.nil_append, List.drop_zero]
      rw [if_neg (by omega : ¬tot = 0), htail]
  | succ i ih =>
    intro s g1 tot h hi htot
    match s with
    | [] => rw [List.drop_nil] at hi; rw [hnil] at hi; exact absurd hi (by simp)
    | c :: rest =>
      have h0 : m (c :: rest) = none := by simpa using h 0 (by omega)
      rw [subScan_cons, h0]
      dsimp only
      have hrest := ih rest g1 tot
        (fun j hj => by simpa [List.drop_succ_cons] using h (j + 1) (by omega))
        (by simpa [List.drop_succ_cons] using hi) htot
      rw [hrest]
      have harith : i + 1 + tot = (i + tot) + 1 := by omega
      rw [harith]
      simp only [List.drop_succ_cons, List.take_succ_cons, List.cons_append]

theorem maxRun_le_length (p : Char → Bool) : ∀ s : List Char, maxRun p s ≤ s.length := by
  intro s
  induction s with
  | nil => simp [maxRun]
  | cons c rest ih =>
    rw [maxRun]
    split
    · simpa using ih
    · simp

theorem sat_of_le_maxRun (p : Char → Bool) :
    ∀ (s : List Char) (k : Nat), k ≤ maxRun p s → ∀ c ∈ s.take k, p c := by
  intro s
  induction s with
  | nil => simp
  | cons a rest ih =>
    intro k hk c hc
    rw [maxRun] at hk
    by_cases hp : p a
    · rw [if_pos hp] at hk
      match k with
      | 0 => simp at hc
      | k' + 1 =>
        rw [List.take_succ_cons] at hc
        rcases List.mem_cons.mp hc with h | h
        · exact h ▸ hp
        · exact ih k' (by omega) c h
    · rw [if_neg hp] at hk
      have : k = 0 := by omega
      subst this
      simp at hc

theorem le_maxRun_of_sat (p : Char → Bool) :
    ∀ (w t : List Char), (∀ c ∈ w, p c) → w.length ≤ maxRun p (w ++ t) := by
  intro w
  induction w with
  | nil => simp
  | cons a rest ih =>
    intro t hw
    have hpa : p a := hw a (by simp)
    rw [List.cons_append, maxRun, if_pos hpa]
    have := ih t (fun c hc => hw c (by simp [hc]))
    simpa using this

theorem tryDown_eq_some (cont : Nat → Option Nat) (minK : Nat) :
    ∀ (k r : Nat), tryDown cont minK k = some r →
      ∃ j, minK ≤ j ∧ j ≤ k ∧ cont j = some r := by
  intro k
  induction k with
  | zero =>
    intro r h
    rw [tryDown] at h
    split at h
    · exact ⟨0, by omega, by omega, h⟩
    · exact absurd h (by simp)
  | succ k ih =>
    intro r h
    rw [tryDown] at h
    split at h
    · exact absurd h (by simp)
    · rename_i hlt
      match hc : cont (k + 1) with
      | some r' => rw [hc] at h; exact ⟨k + 1, by omega, by omega, by rw [hc, ← h]⟩
      | none =>
        rw [hc] at h
        obtain ⟨j, h1, h2, h3⟩ := ih r h
        exact ⟨j, h1, by omega, h3⟩

theorem tryDown_isSome (cont : Nat → Option Nat) (minK : Nat) :
    ∀ (k j : Nat), minK ≤ j → j ≤ k → (cont j).isSome →
      (tryDown cont minK k).isSome := by
  intro k
  induction k with
  | zero =>
    intro j h1 h2 h3
    have : j = 0 := by omega
    subst this
    rw [tryDown, if_pos (by omega)]
    exact h3
  | succ k ih =>
    intro j h1 h2 h3
    rw [tryDown]
    rw [if_neg (by omega)]
    match hc : cont (k + 1) with
    | some r => simp
    | none =>
      by_cases hj : j = k + 1
      · subst hj; rw [hc] at h3; simp at h3
      · exact ih j h1 (by omega) h3

theorem matchScriptEnd_nil : matchScriptEnd [] = none := by decide

theorem matchInitAnchor_nil : matchInitAnchor [] = none := by decide

/-- A successful init-anchor match has sane bounds: the first group lies
inside the match and the match lies inside the scanned suffix. -/
theorem matchInitAnchor_bounds (s : List Char) (g1 tot : Nat)
    (h : matchInitAnchor s = some (g1, tot)) :
    g1 ≤ tot ∧ 0 < tot ∧ tot ≤ s.length := by
  rw [matchInitAnchor] at h
  split at h
  · rename_i hpre
    dsimp only at h
    split at h
    · rename_i k htd
      obtain ⟨j, _, hj2, hc⟩ := tryDown_eq_some _ _ _ _ htd
      split at hc
      · rename_i hlog
        have hjk : j = k := by simpa using hc
        subst hjk
        have hopen : litInitOpen.length ≤ s.length := by
          have := (List.isPrefixOf_iff_prefix.mp hpre).length_le
          omega
        have hmr := maxRun_le_length notRBrace (s.drop litInitOpen.length)
        have hlog' : litInitLog.length ≤ ((s.drop litInitOpen.length).drop j).length :=
          (List.isPrefixOf_iff_prefix.mp hlog).length_le
        have e1 : (s.drop litInitOpen.length).length = s.length - litInitOpen.length :=
          List.length_drop _ _
        have e2 : ((s.drop litInitOpen.length).drop j).length =
            (s.drop litInitOpen.length).length - j := List.length_drop _ _
        have hloglen : 0 < litInitLog.length := by decide
        obtain ⟨hg, ht⟩ : g1 = litInitOpen.length + j ∧
            tot = litInitOpen.length + j + litInitLog.length := by
          have := h
          simp at this
          omega
        omega
      · exact absurd hc (by simp)
    · exact absurd h (by simp)
  · exact absurd h (by simp)

/-- Soundness of the init-anchor matcher: a match decomposes the suffix as the
function opening, a brace-free middle, the log statement, and a remainder. -/
theorem matchInitAnchor_decomp (s : List Char) (g1 tot : Nat)
    (h : matchInitAnchor s = some (g1, tot)) :
    ∃ m q, s = litInitOpen ++ m ++ litInitLog ++ q ∧ ∀ c ∈ m, notRBrace c := by
  rw [matchInitAnchor] at h
  split at h
  · rename_i hpre
    dsimp only at h
    split at h
    · rename_i k htd
      obtain ⟨j, _, hj2, hc⟩ := tryDown_eq_some _ _ _ _ htd
      split at hc
      · rename_i hlog
        obtain ⟨t1q, ht1q⟩ := List.isPrefixOf_iff_prefix.mp hpre
        obtain ⟨q, hq⟩ := List.isPrefixOf_iff_prefix.mp hlog
        refine ⟨(s.drop litInitOpen.length).take j, q, ?_, ?_⟩
        · have e1 : s = litInitOpen ++ s.drop litInitOpen.length := by
            conv_lhs => rw [← ht1q]
            rw [← ht1q, List.drop_left]
          conv_lhs => rw [e1]
          have e2 : s.drop litInitOpen.length =
              (s.drop litInitOpen.length).take j ++ (s.drop litInitOpen.length).drop j :=
            (List.take_append_drop _ _).symm
          conv_lhs => rw [e2, ← hq]
          simp [List.append_assoc]
        · exact sat_of_le_maxRun notRBrace _ j hj2
      · exact absurd hc (by simp)
    · exact absurd h (by simp)
  · exact absurd h (by simp)

/-- Completeness of the init-anchor matcher: a decomposition into opening,
brace-free middle, log statement and remainder yields a match. -/
theorem matchInitAnchor_complete (m q : List Char) (hm : ∀ c ∈ m, notRBrace c) :
    (matchInitAnchor (litInitOpen ++ (m ++ (litInitLog ++ q)))).isSome := by
  rw [matchInitAnchor]
  have hpre : litInitOpen.isPrefixOf (litInitOpen ++ (m ++ (litInitLog ++ q))) := by
    rw [List.isPrefixOf_iff_prefix]
    exact ⟨m ++ (litInitLog ++ q), rfl⟩
  rw [if_pos hpre]
  dsimp only
  have hdl : (litInitOpen ++ (m ++ (litInitLog ++ q))).drop litInitOpen.length =
      m ++ (litInitLog ++ q) := List.drop_left _ _
  have hcont : (if litInitLog.isPrefixOf
      (((litInitOpen ++ (m ++ (litInitLog ++ q))).drop litInitOpen.length).drop m.length)
      then some m.length else none).isSome := by
    rw [hdl, List.drop_left]
    rw [if_pos (by rw [List.isPrefixOf_iff_prefix]; exact ⟨q, rfl⟩)]
    simp
  have hle : m.length ≤ maxRun notRBrace
      ((litInitOpen ++ (m ++ (litInitLog ++ q))).drop litInitOpen.length) := by
    rw [hdl]
    exact le_maxRun_of_sat notRBrace m _ hm
  have hts := tryDown_isSome (fun k =>
      if litInitLog.isPrefixOf
          (((litInitOpen ++ (m ++ (litInitLog ++ q))).drop litInitOpen.length).drop k)
        then some k else none) 0
      (maxRun notRBrace ((litInitOpen ++ (m ++ (litInitLog ++ q))).drop litInitOpen.length))
      m.length (by omega) hle hcont
  rcases htd : tryDown (fun k =>
      if litInitLog.isPrefixOf
          (((litInitOpen ++ (m ++ (litInitLog ++ q))).drop litInitOpen.length).drop k)
        then some k else none) 0
      (maxRun notRBrace ((litInitOpen ++ (m ++ (litInitLog ++ q))).drop litInitOpen.length))
      with _ | k
  · rw [htd] at hts
    simp at hts
  · simp

/-- A successful script-end match has sane bounds. -/
theorem matchScriptEnd_bounds (s : List Char) (g1 tot : Nat)
    (h : matchScriptEnd s = some (g1, tot)) :
    g1 ≤ tot ∧ 0 < tot ∧ tot ≤ s.length := by
  rw [matchScriptEnd] at h
  split at h
  · rename_i hpre
    dsimp only at h
    split at h
    · rename_i inner htd
      obtain ⟨j1, _, hj1, hc1⟩ := tryDown_eq_some _ _ _ _ htd
      split at hc1
      · rename_i hcall
        split at hc1
        · rename_i k2 htd2
          obtain ⟨j2, _, hj2, hc2⟩ := tryDown_eq_some _ _ _ _ htd2
          split at hc2
          · rename_i hse
            have hj2k : j2 = k2 := by simpa using hc2
            subst hj2k
            have hopen : litStartApp.length ≤ s.length :=
              (List.isPrefixOf_iff_prefix.mp hpre).length_le
            have hmr1 := maxRun_le_length pyWS (s.drop litStartApp.length)
            have hcall' := (List.isPrefixOf_iff_prefix.mp hcall).length_le
            have hmr2 := maxRun_le_length pyWS
              (((s.drop litStartApp.length).drop j1).drop litInitCall.length)
            have hse' := (List.isPrefixOf_iff_prefix.mp hse).length_le
            simp only [List.length_drop] at hcall' hmr1 hmr2 hse' ⊢
            have hlit1 : litStartApp.length = 24 := by decide
            have hlit2 : litInitCall.length = 7 := by decide
            have hlit3 : litScriptEnd.length = 13 := by decide
            obtain ⟨hinner, hg, ht⟩ : inner = j1 + litInitCall.length + j2 ∧
                g1 = litStartApp.length + inner ∧
                tot = litStartApp.length + inner + litScriptEnd.length := by
              have h' := h
              simp at h'
              have hc1' := hc1
              simp at hc1'
              omega
            omega
          · exact absurd hc2 (by simp)
        · exact absurd hc1 (by simp)
      · exact absurd hc1 (by simp)
    · exact absurd h (by simp)
  · exact absurd h (by simp)

/-- The length of `subScan` output is at least the input length, provided the
replacement never shrinks below the two groups it is given. -/
theorem subScan_length_ge (m : List Char → Option (Nat × Nat))
    (repl : List Char → List Char → List Char)
    (hm : ∀ s g1 tot, m s = some (g1, tot) → g1 ≤ tot ∧ 0 < tot ∧ tot ≤ s.length)
    (hrep : ∀ g1 g2 : List Char, g1.length + g2.length ≤ (repl g1 g2).length) :
    ∀ (n : Nat) (s : List Char), s.length ≤ n →
      s.length ≤ (subScan m repl s).length := by
  intro n
  induction n with
  | zero =>
    intro s hs
    have : s = [] := List.eq_nil_of_length_eq_zero (by omega)
    subst this
    exact Nat.le_refl _
  | succ n ih =>
    intro s hs
    match s with
    | [] => exact Nat.le_refl _
    | c :: rest =>
      rw [subScan_cons]
      split
      · rename_i g1 tot hmc
        split
        · simp only [List.length_cons]
          have := ih rest (by simp only [List.length_cons] at hs; omega)
          omega
        · rename_i htot
          obtain ⟨hb1, _, hb3⟩ := hm _ _ _ hmc
          simp only [List.length_append, List.length_take, List.length_drop]
          have hlen : ((c :: rest).drop tot).length ≤ n := by
            simp only [List.length_drop]
            simp only [List.length_cons] at hs ⊢
            omega
          have h2 := ih _ hlen
          have h3 := hrep ((c :: rest).take g1)
            (((c :: rest).drop g1).take (tot - g1))
          simp only [List.length_take, List.length_drop, List.length_cons] at h2 h3 ⊢
          simp only [List.length_cons] at hs hb3
          omega
      · simp only [List.length_cons]
        have := ih rest (by simp only [List.length_cons] at hs; omega)
        omega

/-- If the replacement strictly grows past its two groups and some position of
`s` matches, `subScan` strictly lengthens the text (so in particular changes
it). -/
theorem subScan_length_gt (m : List Char → Option (Nat × Nat))
    (repl : List Char → List Char → List Char)
    (hm : ∀ s g1 tot, m s = some (g1, tot) → g1 ≤ tot ∧ 0 < tot ∧ tot ≤ s.length)
    (hrep : ∀ g1 g2 : List Char, g1.length + g2.length ≤ (repl g1 g2).length)
    (hrep2 : ∀ g1 g2 : List Char, g1.length + g2.length < (repl g1 g2).length)
    (hnil : m [] = none) :
    ∀ (n : Nat) (s : List Char) (i : Nat), s.length ≤ n → (m (s.drop i)).isSome →
      s.length < (subScan m repl s).length := by
  intro n
  induction n with
  | zero =>
    intro s i hs hi
    have : s = [] := List.eq_nil_of_length_eq_zero (by omega)
    subst this
    rw [List.drop_nil, hnil] at hi
    simp at hi
  | succ n ih =>
    intro s i hs hi
    match s with
    | [] =>
      rw [List.drop_nil, hnil] at hi
      simp at hi
    | c :: rest =>
      rw [subScan_cons]
      split
      · rename_i g1 tot hmc
        obtain ⟨hb1, hb2, hb3⟩ := hm _ _ _ hmc
        split
        · omega
        · simp only [List.length_append, List.length_take, List.length_drop]
          have hlen : ((c :: rest).drop tot).length ≤ n := by
            simp only [List.length_drop]
            simp only [List.length_cons] at hs ⊢
            omega
          have h2 := subScan_length_ge m repl hm hrep n _ hlen
          have h3 := hrep2 ((c :: rest).take g1)
            (((c :: rest).drop g1).take (tot - g1))
          simp only [List.length_take, List.length_drop, List.length_cons] at h2 h3 ⊢
          simp only [List.length_cons] at hs hb3
          omega
      · rename_i hmc
        match i with
        | 0 => rw [List.drop_zero] at hi; rw [hmc] at hi; simp at hi
        | i + 1 =>
          simp only [List.length_cons]
          have := ih rest i (by simp only [List.length_cons] at hs; omega)
            (by simpa [List.drop_succ_cons] using hi)
          omega

theorem insBText_length : insBText.length = 35 := by decide

theorem replInit_length (g1 g2 : List Char) :
    (replInit g1 g2).length = g1.length + 35 + g2.length := by
  simp [replInit, insBText_length]
  omega

/-- Somewhere in `doc` the init-anchor matcher fires exactly when `doc`
decomposes into a prefix, the function opening, a brace-free middle, the log
statement and a remainder. -/
theorem initAnchor_exists_iff (doc : List Char) :
    (∃ j, (matchInitAnchor (doc.drop j)).isSome) ↔
      ∃ p m q, doc = p ++ litInitOpen ++ m ++ litInitLog ++ q ∧ ∀ c ∈ m, notRBrace c := by
  constructor
  · rintro ⟨j, hj⟩
    match hm : matchInitAnchor (doc.drop j) with
    | none => rw [hm] at hj; simp at hj
    | some (g1, tot) =>
      obtain ⟨m, q, hdec, hbr⟩ := matchInitAnchor_decomp _ _ _ hm
      refine ⟨doc.take j, m, q, ?_, hbr⟩
      conv_lhs => rw [← List.take_append_drop j doc, hdec]
      simp [List.append_assoc]
  · rintro ⟨p, m, q, hdec, hbr⟩
    refine ⟨p.length, ?_⟩
    have : doc.drop p.length = litInitOpen ++ (m ++ (litInitLog ++ q)) := by
      rw [hdec]
      simp only [List.append_assoc]
      exact List.drop_left _ _
    rw [this]
    exact matchInitAnchor_complete m q hbr

/-- The init substitution changes the document exactly when the matcher fires
somewhere in it. -/
theorem applyInitSub_ne_iff (doc : List Char) :
    applyInitSub doc ≠ doc ↔ ∃ j, (matchInitAnchor (doc.drop j)).isSome := by
  constructor
  · intro hne
    by_contra hno
    push_neg at hno
    apply hne
    apply subScan_id
    intro j
    have := hno j
    match hm : matchInitAnchor (doc.drop j) with
    | none => rfl
    | some r => rw [hm] at this; simp at this
  · rintro ⟨j, hj⟩
    have hlt := subScan_length_gt matchInitAnchor replInit matchInitAnchor_bounds
      (fun g1 g2 => by rw [replInit_length]; omega)
      (fun g1 g2 => by rw [replInit_length]; omega)
      matchInitAnchor_nil doc.length doc j (le_refl _) hj
    intro heq
    rw [applyInitSub] at heq
    rw [heq] at hlt
    omega

/-- Claim C10: the loader-call insertion (insertion B) is performed if and
only if the document contains the init-function opening followed by its final
fixed log statement with no closing brace anywhere between them; any closing
brace inside the init body before that log statement makes the anchor fail to
match, and the loader call is then not inserted. -/
theorem claim_C10_loader_call_iff_brace_free_anchor (doc : List Char) :
    applyInitSub doc ≠ doc ↔
      ∃ p m q, doc = p ++ litInitOpen ++ m ++ litInitLog ++ q ∧ ∀ c ∈ m, notRBrace c :=
  (applyInitSub_ne_iff doc).trans (initAnchor_exists_iff doc)

example : (parse_required_files ("# user_files: names.csv , b.txt ".toList)).1 =
    ["names.csv".toList, "b.txt".toList] := by decide

example : (parse_required_files ("x=1\n#\nUSER_FILES:  a , b ".toList)).1 =
    ["a".toList, "b".toList] := by decide

example : (parse_required_files ("# user_files:\nabc".toList)).1 =
    ["abc".toList] := by decide

example : parse_required_files ("# nothing here".toList) = ([], []) := by decide

example : (parse_required_files ("# process_files: out.csv".toList)).2 =
    ["out.csv".toList] := by decide

theorem char_ofNat_toNat_valid (n : Nat) (h : n.isValidChar) :
    (Char.ofNat n).toNat = n := by
  rw [Char.ofNat, dif_pos h]
  simp [Char.ofNatAux, Char.toNat, UInt32.toNat]

theorem toLower_toLower (c : Char) : c.toLower.toLower = c.toLower := by
  simp only [Char.toLower]
  by_cases h : c.toNat ≥ 65 ∧ c.toNat ≤ 90
  · rw [if_pos h]
    have ht : (Char.ofNat (c.toNat + 32)).toNat = c.toNat + 32 :=
      char_ofNat_toNat_valid _ (Or.inl (by omega))
    rw [if_neg (by omega)]
  · rw [if_neg h, if_neg h]

theorem toLower_eq_self_of_pyWS (c : Char) (h : pyWS c = true) : c.toLower = c := by
  simp only [Char.toLower]
  rw [if_neg]
  simp only [pyWS, Bool.or_eq_true, Bool.and_eq_true, decide_eq_true_eq] at h
  omega

theorem pyWS_eq_false_of_toLower_u (c : Char) (h : c.toLower = 'u') :
    pyWS c = false := by
  by_contra hh
  have hws : pyWS c = true := by revert hh; cases pyWS c <;> simp
  have hself := toLower_eq_self_of_pyWS c hws
  rw [hself] at h
  subst h
  exact absurd hws (by decide)

theorem isPrefixOfCI_map_toLower :
    ∀ t r : List Char, isPrefixOfCI (t.map Char.toLower) (t ++ r) = true := by
  intro t
  induction t with
  | nil => intro r; rfl
  | cons c ts ih =>
    intro r
    rw [List.map_cons, List.cons_append, isPrefixOfCI]
    rw [lowerEq, toLower_toLower]
    simp only [beq_self_eq_true, Bool.true_and]
    exact ih r

theorem maxRun_eq_length_of_sat (p : Char → Bool) :
    ∀ x : List Char, (∀ c ∈ x, p c) → maxRun p x = x.length := by
  intro x
  induction x with
  | nil => intro _; rfl
  | cons c xs ih =>
    intro h
    rw [maxRun, if_pos (h c (by simp))]
    rw [ih (fun d hd => h d (by simp [hd]))]
    rfl

theorem maxRun_append_stop (p : Char → Bool) :
    ∀ (w : List Char) (d : Char) (t : List Char), (∀ c ∈ w, p c) → p d = false →
      maxRun p (w ++ d :: t) = w.length := by
  intro w
  induction w with
  | nil => intro d t _ hd; simp [maxRun, hd]
  | cons c ws ih =>
    intro d t hw hd
    rw [List.cons_append, maxRun, if_pos (hw c (by simp))]
    rw [ih d t (fun e he => hw e (by simp [he])) hd]
    rfl

theorem maxRun_takeWhile_append (p : Char → Bool) :
    ∀ (v t : List Char), (∃ c ∈ v, p c = false) →
      maxRun p (v ++ t) = (v.takeWhile p).length := by
  intro v
  induction v with
  | nil => rintro t ⟨c, hc, _⟩; simp at hc
  | cons a vs ih =>
    intro t hex
    by_cases hp : p a
    · rw [List.cons_append, maxRun, if_pos hp, List.takeWhile_cons, if_pos hp]
      have hex' : ∃ c ∈ vs, p c = false := by
        obtain ⟨c, hc, hcf⟩ := hex
        rcases List.mem_cons.mp hc with h | h
        · subst h; rw [hp] at hcf; simp at hcf
        · exact ⟨c, h, hcf⟩
      rw [ih t hex']
      rfl
    · rw [List.cons_append, maxRun, if_neg hp, List.takeWhile_cons,
        if_neg hp]
      rfl

theorem dropWhile_ne_nil_of_exists (p : Char → Bool) :
    ∀ v : List Char, (∃ c ∈ v, p c = false) → v.dropWhile p ≠ [] := by
  intro v
  induction v with
  | nil => rintro ⟨c, hc, _⟩; simp at hc
  | cons a vs ih =>
    rintro ⟨c, hc, hcf⟩
    rw [List.dropWhile_cons]
    by_cases hp : p a
    · rw [if_pos hp]
      apply ih
      rcases List.mem_cons.mp hc with h | h
      · subst h; rw [hp] at hcf; simp at hcf
      · exact ⟨c, h, hcf⟩
    · rw [if_neg hp]
      simp

theorem matchMarkerAt_nil (mk : List Char) : matchMarkerAt mk [] = none := rfl

/-- The search finds the leftmost match: if no position before `i` matches
and position `i` matches with value `v`, the search returns `v`. -/
theorem searchMarker_first (mk : List Char) :
    ∀ (i : Nat) (s : List Char) (v : List Char),
      (∀ j, j < i → matchMarkerAt mk (s.drop j) = none) →
      matchMarkerAt mk (s.drop i) = some v →
      searchMarker mk s = some v := by
  intro i
  induction i with
  | zero =>
    intro s v _ hi
    match s with
    | [] => rw [List.drop_nil, matchMarkerAt_nil] at hi; exact absurd hi (by simp)
    | c :: rest =>
      rw [List.drop_zero] at hi
      rw [searchMarker, hi]
  | succ i ih =>
    intro s v h hi
    match s with
    | [] => rw [List.drop_nil, matchMarkerAt_nil] at hi; exact absurd hi (by simp)
    | c :: rest =>
      have h0 : matchMarkerAt mk (c :: rest) = none := by simpa using h 0 (by omega)
      rw [searchMarker, h0]
      exact ih rest v (fun j hj => by simpa [List.drop_succ_cons] using h (j + 1) (by omega))
        (by simpa [List.drop_succ_cons] using hi)

/-- If no position of `s` matches, the search fails. -/
theorem searchMarker_none (mk : List Char) :
    ∀ s : List Char, (∀ j, matchMarkerAt mk (s.drop j) = none) →
      searchMarker mk s = none := by
  intro s
  induction s with
  | nil => intro _; rfl
  | cons c rest ih =>
    intro h
    have h0 : matchMarkerAt mk (c :: rest) = none := by simpa using h 0
    rw [searchMarker, h0]
    exact ih (fun j => by simpa [List.drop_succ_cons] using h (j + 1))

theorem pyStrip_cons_ws (c : Char) (h : pyWS c = true) (s : List Char) :
    pyStrip (c :: s) = pyStrip s := by
  rw [pyStrip, pyStrip, List.dropWhile_cons, if_pos h]

theorem cleanTokens_cons_ws (c : Char) (h : pyWS c = true) (v : List Char) :
    cleanTokens (c :: v) = cleanTokens v := by
  have hnc : (c == ',') = false := by
    by_contra hcc
    have : c = ',' := by
      revert hcc; cases hbe : (c == ',')
      · simp
      · intro _; exact eq_of_beq hbe
    subst this
    exact absurd h (by decide)
  rw [cleanTokens, cleanTokens, List.splitOn, List.splitOn]
  rw [List.splitOnP_cons, hnc]
  simp only [Bool.false_eq_true, if_false]
  match hL : v.splitOnP (fun d => d == ',') with
  | [] => exact absurd hL (List.splitOnP_ne_nil _ v)
  | h0 :: L' =>
    simp only [List.modifyHead, List.map_cons]
    rw [pyStrip_cons_ws c h h0]

theorem cleanTokens_dropWhile (v : List Char) :
    cleanTokens (v.dropWhile pyWS) = cleanTokens v := by
  induction v with
  | nil => rfl
  | cons c vs ih =>
    rw [List.dropWhile_cons]
    by_cases hp : pyWS c
    · rw [if_pos hp, ih, cleanTokens_cons_ws c hp]
    · rw [if_neg hp]

theorem tryDown_top (cont : Nat → Option Nat) (minK k r : Nat)
    (h1 : minK ≤ k) (h2 : cont k = some r) : tryDown cont minK k = some r := by
  match k with
  | 0 =>
    rw [tryDown, if_pos (by omega)]
    exact h2
  | k + 1 =>
    rw [tryDown, if_neg (by omega), h2]

/-- Value of the marker matcher at a well-formed marker occurrence: a hash,
whitespace, a case variant of the marker word, then a value holding some
non-whitespace character and no newline, then either nothing or a newline.
The capture is the value minus its leading whitespace. -/
theorem matchMarkerAt_wellFormed (w mk v tail : List Char)
    (hw : ∀ c ∈ w, pyWS c = true)
    (hmk : mk.map Char.toLower = "user_files:".toList)
    (hv1 : '\n' ∉ v)
    (hv2 : ∃ c ∈ v, pyWS c = false)
    (htail : tail = [] ∨ ∃ t', tail = '\n' :: t') :
    matchMarkerAt ("user_files:".toList) ('#' :: (w ++ (mk ++ (v ++ tail)))) =
      some (v.dropWhile pyWS) := by
  match mk, hmk with
  | c0 :: mk', hmk =>
    rw [List.map_cons] at hmk
    have hmk2 : (c0 :: mk').map Char.toLower = "user_files:".toList := by
      rw [List.map_cons]
      exact hmk
    have h0 : c0.toLower = 'u' := by
      rw [show "user_files:".toList = 'u' :: "ser_files:".toList from rfl] at hmk
      exact (List.cons.inj hmk).1
    have hns : pyWS c0 = false := pyWS_eq_false_of_toLower_u c0 h0
    simp only [matchMarkerAt]
    rw [if_pos trivial]
    have hmax : maxRun pyWS (w ++ ((c0 :: mk') ++ (v ++ tail))) = w.length := by
      rw [List.cons_append]
      exact maxRun_append_stop pyWS w c0 _ hw hns
    have hmklen : (c0 :: mk').length = ("user_files:".toList).length := by
      have hlen := congrArg List.length hmk2
      rw [List.length_map] at hlen
      exact hlen
    have hpreCI : isPrefixOfCI ("user_files:".toList)
        ((w ++ ((c0 :: mk') ++ (v ++ tail))).drop w.length) = true := by
      rw [List.drop_left, ← hmk2]
      exact isPrefixOfCI_map_toLower (c0 :: mk') (v ++ tail)
    have hcont : (if isPrefixOfCI ("user_files:".toList)
        ((w ++ ((c0 :: mk') ++ (v ++ tail))).drop w.length) = true then some w.length
        else none) = some w.length := by
      rw [if_pos hpreCI]
    rw [hmax, tryDown_top (fun k => if isPrefixOfCI ("user_files:".toList)
        ((w ++ ((c0 :: mk') ++ (v ++ tail))).drop k) = true then some k else none)
      0 w.length w.length (by omega) hcont]
    dsimp only
    rw [List.drop_left, ← hmklen, List.drop_left]
    have hmax2 : maxRun pyWS (v ++ tail) = (v.takeWhile pyWS).length :=
      maxRun_takeWhile_append pyWS v tail hv2
    rw [hmax2]
    have hdrop : (v ++ tail).drop ((v.takeWhile pyWS).length) =
        v.dropWhile pyWS ++ tail := by
      conv_lhs => rw [show v ++ tail = v.takeWhile pyWS ++ (v.dropWhile pyWS ++ tail) from by
        rw [← List.append_assoc, List.takeWhile_append_dropWhile]]
      rw [List.drop_left]
    rw [hdrop]
    have hsat : ∀ c ∈ v.dropWhile pyWS, notNL c = true := by
      intro c hc
      have hcv : c ∈ v := (List.dropWhile_sublist pyWS (l := v)).mem hc
      rw [notNL]
      have : ¬(c = '\n') := fun he => hv1 (he ▸ hcv)
      simp [this]
    have hmax3 : maxRun notNL (v.dropWhile pyWS ++ tail) =
        (v.dropWhile pyWS).length := by
      rcases htail with h | ⟨t', ht'⟩
      · rw [h, List.append_nil]
        exact maxRun_eq_length_of_sat notNL _ hsat
      · rw [ht']
        exact maxRun_append_stop notNL _ '\n' t' hsat (by decide)
    rw [hmax3, List.take_left]

/-- Claim C3, amended.  The extractor (the `user_files` list of
`parse_required_files`, named `required_inputs` in the specification) behaves
as claimed for an absent marker and for a marker whose line-value holds some
non-whitespace character: tokens are split on commas, trimmed, and empty
tokens dropped, regardless of surrounding whitespace and of the letter case
of the marker word.  The original claim's clause that an *empty* value yields
the empty sequence is false (see the counterexample): with a blank value the
pattern's whitespace matching crosses the newline and captures following
text, so that clause is restricted here to values holding a non-whitespace
character. -/
theorem claim_C3_extractor_amended :
    (∀ content : List Char,
      (∀ j, matchMarkerAt ("user_files:".toList) (content.drop j) = none) →
      (parse_required_files content).1 = []) ∧
    (∀ pre w mk v tail : List Char,
      (∀ j, j < pre.length →
        matchMarkerAt ("user_files:".toList)
          ((pre ++ '#' :: (w ++ (mk ++ (v ++ tail)))).drop j) = none) →
      (∀ c ∈ w, pyWS c = true) →
      mk.map Char.toLower = "user_files:".toList →
      '\n' ∉ v →
      (∃ c ∈ v, pyWS c = false) →
      (tail = [] ∨ ∃ t', tail = '\n' :: t') →
      (parse_required_files (pre ++ '#' :: (w ++ (mk ++ (v ++ tail))))).1 =
        cleanTokens v) := by
  constructor
  · intro content h
    simp only [parse_required_files]
    rw [searchMarker_none _ _ h]
  · intro pre w mk v tail hpre hw hmk hv1 hv2 htail
    have hmatch := matchMarkerAt_wellFormed w mk v tail hw hmk hv1 hv2 htail
    have hdropPre : (pre ++ '#' :: (w ++ (mk ++ (v ++ tail)))).drop pre.length =
        '#' :: (w ++ (mk ++ (v ++ tail))) := List.drop_left _ _
    have hsearch := searchMarker_first ("user_files:".toList) pre.length _ _
      hpre (by rw [hdropPre]; exact hmatch)
    simp only [parse_required_files]
    rw [hsearch]
    have hne : (v.dropWhile pyWS).isEmpty = false := by
      have hnn := dropWhile_ne_nil_of_exists pyWS v hv2
      cases hE : v.dropWhile pyWS with
      | nil => exact absurd hE hnn
      | cons a l => rfl
    dsimp only
    rw [if_neg (by simp [hne])]
    exact cleanTokens_dropWhile v

theorem claim_C3_extractor_amended_witness :
    (parse_required_files (("code\n".toList) ++ '#' :: (("  ".toList) ++
        (("USER_FILES:".toList) ++ (("  names.csv , b.txt  ".toList) ++
        ("\nrest".toList)))))).1 =
      ["names.csv".toList, "b.txt".toList] := by
  rw [claim_C3_extractor_amended.2 ("code\n".toList) ("  ".toList)
    ("USER_FILES:".toList) ("  names.csv , b.txt  ".toList) ("\nrest".toList)
    (by decide) (by decide) (by decide) (by decide) (by decide)
    (Or.inr ⟨"rest".toList, rfl⟩)]
  decide

/-- Claim C3 counterexample: a file whose marker comment line has an empty
value (the text is exactly the marker line, a newline, and a following line)
does not yield the empty sequence: the extractor returns the next line's text
as a token. -/
theorem claim_C3_counterexample :
    ("# user_files:\nabc".toList =
        "# user_files:".toList ++ '\n' :: "abc".toList) ∧
    (parse_required_files ("# user_files:\nabc".toList)).1 = ["abc".toList] :=
  ⟨by decide, by decide⟩

theorem b64index_b64char : ∀ n, n < 64 → b64index (b64char n) = some n := by decide

theorem b64char_ne_pad : ∀ n, n < 64 → ¬(b64char n = '=') := by decide

/-- Base64 round trip on byte lists. -/
theorem b64_round : ∀ bs : List Nat, (∀ b ∈ bs, b < 256) →
    b64decode (b64encode bs) = some bs
  | [] => fun _ => by simp [b64encode, b64decode]
  | [a] => fun h => by
    have ha : a < 256 := h a (by simp)
    rw [b64encode, b64decode]
    rw [if_pos (by simp)]
    rw [b64index_b64char _ (by omega), b64index_b64char _ (by omega)]
    simp only [Option.some_bind, Option.map_some']
    have : a / 4 * 4 + a % 4 * 16 / 16 = a := by omega
    rw [this]
  | [a, b] => fun h => by
    have ha : a < 256 := h a (by simp)
    have hb : b < 256 := h b (by simp)
    rw [b64encode, b64decode]
    rw [if_neg (by simp [b64char_ne_pad (b % 16 * 4) (by omega)])]
    rw [if_pos (by simp)]
    rw [b64index_b64char _ (by omega), b64index_b64char _ (by omega),
      b64index_b64char _ (by omega)]
    simp only [Option.some_bind, Option.map_some']
    have e1 : a / 4 * 4 + (a % 4 * 16 + b / 16) / 16 = a := by omega
    have e2 : (a % 4 * 16 + b / 16) % 16 * 16 + b % 16 * 4 / 4 = b := by omega
    rw [e1, e2]
  | a :: b :: c :: rest => fun h => by
    have ha : a < 256 := h a (by simp)
    have hb : b < 256 := h b (by simp)
    have hc : c < 256 := h c (by simp)
    have ih := b64_round rest (fun x hx => h x (by simp [hx]))
    rw [b64encode, b64decode]
    rw [if_neg (by simp [b64char_ne_pad (b % 16 * 4 + c / 64) (by omega)])]
    rw [if_neg (by simp [b64char_ne_pad (c % 64) (by omega)])]
    rw [b64index_b64char _ (by omega), b64index_b64char _ (by omega),
      b64index_b64char _ (by omega), b64index_b64char _ (by omega), ih]
    simp only [Option.some_bind, Option.map_some']
    have e1 : a / 4 * 4 + (a % 4 * 16 + b / 16) / 16 = a := by omega
    have e2 : (a % 4 * 16 + b / 16) % 16 * 16 + (b % 16 * 4 + c / 64) / 4 = b := by
      omega
    have e3 : (b % 16 * 4 + c / 64) % 4 * 64 + c % 64 = c := by omega
    rw [e1, e2, e3]
termination_by bs => bs.length

theorem grabCont_length (l : List Nat) (p : Nat × List Nat)
    (h : grabCont l = some p) : p.2.length + 1 = l.length := by
  match l with
  | [] => exact absurd h (by rw [grabCont]; simp)
  | b :: r =>
    rw [grabCont] at h
    split at h
    · simp at h
      subst h
      rfl
    · exact absurd h (by simp)

theorem utf8DecodeOne_shrinks (l : List Nat) (p : Nat × List Nat)
    (h : utf8DecodeOne l = some p) : p.2.length < l.length := by
  match l with
  | [] => exact absurd h (by rw [utf8DecodeOne]; simp)
  | b :: rest =>
    rw [utf8DecodeOne] at h
    split at h
    · simp at h
      subst h
      simp
    · split at h
      · exact absurd h (by simp)
      · split at h
        · match hg : grabCont rest with
          | none => rw [hg] at h; exact absurd h (by simp)
          | some q =>
            rw [hg] at h
            have hq := grabCont_length rest q hg
            simp at h
            subst h
            simp only [List.length_cons]
            omega
        · split at h
          · match hg : grabCont rest with
            | none => rw [hg] at h; exact absurd h (by simp)
            | some q =>
              rw [hg] at h
              simp only [Option.some_bind] at h
              have hq := grabCont_length rest q hg
              match hg2 : grabCont q.2 with
              | none => rw [hg2] at h; simp at h
              | some q2 =>
                rw [hg2] at h
                have hq2 := grabCont_length q.2 q2 hg2
                simp only [Option.some_bind] at h
                split at h
                · exact absurd h (by simp)
                · simp at h
                  subst h
                  simp only [List.length_cons]
                  omega
          · split at h
            · match hg : grabCont rest with
              | none => rw [hg] at h; exact absurd h (by simp)
              | some q =>
                rw [hg] at h
                simp only [Option.some_bind] at h
                have hq := grabCont_length rest q hg
                match hg2 : grabCont q.2 with
                | none => rw [hg2] at h; simp at h
                | some q2 =>
                  rw [hg2] at h
                  simp only [Option.some_bind] at h
                  have hq2 := grabCont_length q.2 q2 hg2
                  match hg3 : grabCont q2.2 with
                  | none => rw [hg3] at h; simp at h
                  | some q3 =>
                    rw [hg3] at h
                    have hq3 := grabCont_length q2.2 q3 hg3
                    simp only [Option.some_bind] at h
                    split at h
                    · exact absurd h (by simp)
                    · simp at h
                      subst h
                      simp only [List.length_cons]
                      omega
            · exact absurd h (by simp)

theorem utf8DecodeAux_fuel :
    ∀ (f : Nat) (l : List Nat), l.length ≤ f →
      utf8DecodeAux f l = utf8DecodeAux l.length l := by
  intro f
  induction f using Nat.strong_induction_on with
  | _ f ih =>
    intro l hl
    match f, l with
    | f, [] => rw [utf8DecodeAux]; rw [utf8DecodeAux]
    | 0, b :: rest => simp at hl
    | f + 1, b :: rest =>
      rw [utf8DecodeAux]
      rw [show (b :: rest).length = rest.length + 1 from rfl, utf8DecodeAux]
      match ho : utf8DecodeOne (b :: rest) with
      | none => rfl
      | some (v, r) =>
        have hs := utf8DecodeOne_shrinks _ _ ho
        simp only [List.length_cons] at hs hl
        dsimp only
        rw [ih f (by omega) r (by omega), ih rest.length (by omega) r (by omega)]

/-- One decoding step of `utf8Decode`. -/
theorem utf8Decode_cons (l : List Nat) (v : Nat) (r : List Nat)
    (h : utf8DecodeOne l = some (v, r)) :
    utf8Decode l = (utf8Decode r).map fun tl => Char.ofNat v :: tl := by
  match l with
  | [] => exact absurd h (by rw [utf8DecodeOne]; simp)
  | b :: rest =>
    rw [utf8Decode, show (b :: rest).length = rest.length + 1 from rfl,
      utf8DecodeAux, h]
    have hs := utf8DecodeOne_shrinks _ _ h
    simp only [List.length_cons] at hs
    dsimp only
    rw [utf8DecodeAux_fuel rest.length r (by omega)]
    rfl

theorem char_valid_nat (c : Char) :
    c.toNat < 0xd800 ∨ (0xdfff < c.toNat ∧ c.toNat < 0x110000) := c.valid

/-- All bytes of the UTF-8 encoding are bytes. -/
theorem utf8EncodeChar_lt (c : Char) : ∀ b ∈ utf8EncodeChar c, b < 256 := by
  have hv := char_valid_nat c
  intro b hb
  rw [utf8EncodeChar] at hb
  split at hb
  · simp at hb; omega
  · split at hb
    · simp at hb; rcases hb with h | h <;> omega
    · split at hb
      · simp at hb; rcases hb with h | h | h <;> omega
      · simp at hb; rcases hb with h | h | h | h <;> omega

/-- Decoding one step undoes the one-character encoding. -/
theorem utf8DecodeOne_encodeChar (c : Char) (tail : List Nat) :
    utf8DecodeOne (utf8EncodeChar c ++ tail) = some (c.toNat, tail) := by
  have hv := char_valid_nat c
  rw [utf8EncodeChar]
  by_cases h1 : c.toNat < 0x80
  · rw [if_pos h1, List.cons_append, List.nil_append, utf8DecodeOne, if_pos h1]
  · rw [if_neg h1]
    by_cases h2 : c.toNat < 0x800
    · rw [if_pos h2, List.cons_append, List.cons_append, List.nil_append,
        utf8DecodeOne]
      rw [if_neg (by omega), if_neg (by omega : ¬0xc0 + c.toNat / 64 < 0xc2),
        if_pos (by omega : 0xc0 + c.toNat / 64 < 0xe0)]
      rw [grabCont, if_pos (by rw [contByte]; simp; omega)]
      simp only [Option.some_bind]
      have hval : (0xc0 + c.toNat / 64 - 0xc0) * 64 + (0x80 + c.toNat % 64 - 0x80) =
          c.toNat := by omega
      rw [hval]
    · rw [if_neg h2]
      by_cases h3 : c.toNat < 0x10000
      · rw [if_pos h3, List.cons_append, List.cons_append, List.cons_append,
          List.nil_append, utf8DecodeOne]
        rw [if_neg (by omega), if_neg (by omega : ¬0xe0 + c.toNat / 4096 < 0xc2),
          if_neg (by omega : ¬0xe0 + c.toNat / 4096 < 0xe0),
          if_pos (by omega : 0xe0 + c.toNat / 4096 < 0xf0)]
        rw [grabCont, if_pos (by rw [contByte]; simp; omega)]
        simp only [Option.some_bind]
        rw [grabCont, if_pos (by rw [contByte]; simp; omega)]
        simp only [Option.some_bind]
        have hval : (0xe0 + c.toNat / 4096 - 0xe0) * 4096 +
            (0x80 + c.toNat / 64 % 64 - 0x80) * 64 + (0x80 + c.toNat % 64 - 0x80) =
            c.toNat := by omega
        rw [hval]
        rw [if_neg (by simp; omega)]
      · rw [if_neg h3, List.cons_append, List.cons_append, List.cons_append,
          List.cons_append, List.nil_append, utf8DecodeOne]
        rw [if_neg (by omega), if_neg (by omega : ¬0xf0 + c.toNat / 262144 < 0xc2),
          if_neg (by omega : ¬0xf0 + c.toNat / 262144 < 0xe0),
          if_neg (by omega : ¬0xf0 + c.toNat / 262144 < 0xf0),
          if_pos (by omega : 0xf0 + c.toNat / 262144 < 0xf5)]
        rw [grabCont, if_pos (by rw [contByte]; simp; omega)]
        simp only [Option.some_bind]
        rw [grabCont, if_pos (by rw [contByte]; simp; omega)]
        simp only [Option.some_bind]
        rw [grabCont, if_pos (by rw [contByte]; simp; omega)]
        simp only [Option.some_bind]
        have hval : (0xf0 + c.toNat / 262144 - 0xf0) * 262144 +
            (0x80 + c.toNat / 4096 % 64 - 0x80) * 4096 +
            (0x80 + c.toNat / 64 % 64 - 0x80) * 64 + (0x80 + c.toNat % 64 - 0x80) =
            c.toNat := by omega
        rw [hval]
        rw [if_neg (by simp; omega)]

/-- UTF-8 round trip on text. -/
theorem utf8_round : ∀ s : List Char, utf8Decode (utf8Encode s) = some s := by
  intro s
  induction s with
  | nil => rfl
  | cons c cs ih =>
    have henc : utf8Encode (c :: cs) = utf8EncodeChar c ++ utf8Encode cs := by
      rw [utf8Encode, List.map_cons, List.flatten_cons]
      rfl
    rw [henc, utf8Decode_cons _ c.toNat (utf8Encode cs)
      (utf8DecodeOne_encodeChar c (utf8Encode cs))]
    rw [ih]
    simp [Char.ofNat_toNat]

/-- Claim C2: for every file content expressible in the source text encoding,
decoding the transport encoding the Encoder applies yields exactly the
original content: the encoding is lossless. -/
theorem claim_C2_transport_round_trip (content : List Char) :
    transportDecode (transportEncode content) = some content := by
  rw [transportEncode, transportDecode]
  have hbytes : ∀ b ∈ utf8Encode content, b < 256 := by
    intro b hb
    rw [utf8Encode] at hb
    obtain ⟨l, hl, hbl⟩ := List.mem_flatten.mp hb
    obtain ⟨c, _, hcl⟩ := List.mem_map.mp hl
    exact utf8EncodeChar_lt c b (hcl ▸ hbl)
  rw [b64_round _ hbytes]
  rw [Option.some_bind]
  exact utf8_round content

/-- No write event ever appears in the collection trace. -/
theorem collect_no_write : ∀ (files : List DirFile) (n : String) (c : List Char),
    Ev.writeF n c ∉ (collect_python_scripts files).2 := by
  intro files
  induction files with
  | nil => intro n c h; simp [collect_python_scripts] at h
  | cons f rest ih =>
    intro n c h
    rw [collect_python_scripts] at h
    split at h
    · split at h
      · dsimp only at h
        rw [List.mem_cons, List.mem_cons] at h
        rcases h with h | h | h
        · exact Ev.noConfusion h
        · exact Ev.noConfusion h
        · exact ih n c h
      · dsimp only at h
        rw [List.mem_cons, List.mem_cons] at h
        rcases h with h | h | h
        · exact Ev.noConfusion h
        · exact Ev.noConfusion h
        · exact ih n c h
    · exact ih n c h

theorem string_toList_inj (a b : String) (h : a.toList = b.toList) : a = b := by
  rwa [String.toList, String.toList, ← String.ext_iff] at h

/-- Claim C6: when the target document does not exist in the working
directory, the tool prints an error and returns before performing any read
of script files or any write, modifying nothing on disk. -/
theorem claim_C6_missing_target (files : List DirFile)
    (h : findFile files inputName = none) :
    mainRun files = [Ev.printMissingTarget] ∧
    (∀ n, Ev.readF n ∉ mainRun files) ∧
    (∀ n c, Ev.writeF n c ∉ mainRun files) := by
  have hm : mainRun files = [Ev.printMissingTarget] := by rw [mainRun, h]
  refine ⟨hm, ?_, ?_⟩
  · intro n hn
    rw [hm, List.mem_singleton] at hn
    exact Ev.noConfusion hn
  · intro n c hn
    rw [hm, List.mem_singleton] at hn
    exact Ev.noConfusion hn

theorem claim_C6_missing_target_witness :
    mainRun [⟨"a.py", some ("x = 1\n".toList)⟩] = [Ev.printMissingTarget] :=
  (claim_C6_missing_target [⟨"a.py", some ("x = 1\n".toList)⟩] (by decide)).1

/-- Claim C5: when the target document exists but the Scanner discovers zero
script files, a notice is printed, the run ends without creating the output
file, and nothing at all is written. -/
theorem claim_C5_zero_scripts (files : List DirFile) (tf : DirFile)
    (h1 : findFile files inputName = some tf)
    (h2 : (collect_python_scripts files).1 = []) :
    mainRun files = (collect_python_scripts files).2 ++ [Ev.printNoScripts] ∧
    Ev.printNoScripts ∈ mainRun files ∧
    (∀ n c, Ev.writeF n c ∉ mainRun files) := by
  have hm : mainRun files = (collect_python_scripts files).2 ++ [Ev.printNoScripts] := by
    rw [mainRun, h1]
    dsimp only
    rw [if_pos (by rw [h2]; rfl)]
  refine ⟨hm, ?_, ?_⟩
  · rw [hm]
    simp
  · intro n c hn
    rw [hm, List.mem_append] at hn
    rcases hn with hn | hn
    · exact collect_no_write files n c hn
    · rw [List.mem_singleton] at hn
      exact Ev.noConfusion hn

theorem claim_C5_zero_scripts_witness :
    mainRun [⟨"BrowserBox.html", some ("<html>".toList)⟩] = [Ev.printNoScripts] := by
  have h := claim_C5_zero_scripts [⟨"BrowserBox.html", some ("<html>".toList)⟩]
    ⟨"BrowserBox.html", some ("<html>".toList)⟩ (by decide) (by decide)
  exact h.1.trans (by decide)

/-- Claim C7: the tool's own source file is never included in the discovered
set (no record carries its name and it is never even read), while every
other file matching the extension filter is a candidate: its read is
attempted. -/
theorem claim_C7_self_exclusion :
    (∀ (files : List DirFile) (r : ScriptInfo),
      r ∈ (collect_python_scripts files).1 → r.name ≠ "embed_scripts.py".toList) ∧
    (∀ files : List DirFile,
      Ev.readF "embed_scripts.py" ∉ (collect_python_scripts files).2) ∧
    (∀ (files : List DirFile) (f : DirFile), f ∈ files →
      matchesGlob f.name = true → f.name ≠ "embed_scripts.py" →
      Ev.readF f.name ∈ (collect_python_scripts files).2) := by
  refine ⟨?_, ?_, ?_⟩
  · intro files
    induction files with
    | nil => intro r hr; simp [collect_python_scripts] at hr
    | cons f rest ih =>
      intro r hr
      rw [collect_python_scripts] at hr
      split at hr
      · rename_i hguard
        split at hr
        · dsimp only at hr
          rw [List.mem_cons] at hr
          rcases hr with hr | hr
          · subst hr
            intro he
            have : f.name = "embed_scripts.py" :=
              string_toList_inj _ _ (by simpa [mkRecord] using he)
            rw [Bool.and_eq_true] at hguard
            rw [this] at hguard
            simp at hguard
          · exact ih r hr
        · exact ih r hr
      · exact ih r hr
  · intro files
    induction files with
    | nil => intro h; simp [collect_python_scripts] at h
    | cons f rest ih =>
      intro h
      rw [collect_python_scripts] at h
      split at h
      · rename_i hguard
        rw [Bool.and_eq_true] at hguard
        have hne : ¬(Ev.readF "embed_scripts.py" = Ev.readF f.name) := by
          intro he
          have : f.name = "embed_scripts.py" := (Ev.readF.inj he).symm
          rw [this] at hguard
          simp at hguard
        split at h
        · dsimp only at h
          rw [List.mem_cons, List.mem_cons] at h
          rcases h with h | h | h
          · exact hne h
          · exact Ev.noConfusion h
          · exact ih h
        · dsimp only at h
          rw [List.mem_cons, List.mem_cons] at h
          rcases h with h | h | h
          · exact hne h
          · exact Ev.noConfusion h
          · exact ih h
      · exact ih h
  · intro files
    induction files with
    | nil => intro f hf; simp at hf
    | cons g rest ih =>
      intro f hf hglob hself
      rw [List.mem_cons] at hf
      rw [collect_python_scripts]
      rcases hf with hf | hf
      · subst hf
        rw [if_pos (by rw [Bool.and_eq_true]; exact ⟨hglob, by simp [hself]⟩)]
        split
        · dsimp only
          exact List.mem_cons_self _ _
        · dsimp only
          exact List.mem_cons_self _ _
      · have hmem := ih f hf hglob hself
        split
        · split
          · dsimp only
            exact List.mem_cons_of_mem _ (List.mem_cons_of_mem _ hmem)
          · dsimp only
            exact List.mem_cons_of_mem _ (List.mem_cons_of_mem _ hmem)
        · exact hmem

theorem claim_C7_self_exclusion_witness :
    Ev.readF "a.py" ∈ (collect_python_scripts
      [⟨"embed_scripts.py", some []⟩, ⟨"a.py", some ("x".toList)⟩]).2 :=
  claim_C7_self_exclusion.2.2
    [⟨"embed_scripts.py", some []⟩, ⟨"a.py", some ("x".toList)⟩]
    ⟨"a.py", some ("x".toList)⟩ (by decide) (by decide) (by decide)

/-- Claim C8: per-file read failures are reported and excluded while the
walk continues: the record list is exactly, in enumeration order, one record
per successfully read matching non-excluded file, and every failing matching
file gets an error report. -/
theorem claim_C8_per_file_errors :
    (∀ files : List DirFile, (collect_python_scripts files).1 =
      files.filterMap (fun f =>
        if matchesGlob f.name && !(f.name == "embed_scripts.py") then
          f.content.map (fun c => mkRecord f.name c)
        else none)) ∧
    (∀ (files : List DirFile) (f : DirFile), f ∈ files →
      matchesGlob f.name = true → f.name ≠ "embed_scripts.py" →
      f.content = none →
      Ev.printErrorReading f.name ∈ (collect_python_scripts files).2) := by
  constructor
  · intro files
    induction files with
    | nil => rfl
    | cons f rest ih =>
      rw [collect_python_scripts, List.filterMap_cons]
      dsimp only
      by_cases hguard : (matchesGlob f.name && !(f.name == "embed_scripts.py")) = true
      · rw [if_pos hguard]
        match hc : f.content with
        | some c =>
          rw [if_pos hguard]
          dsimp only
          rw [ih]
          simp only [Option.map_some']
        | none =>
          rw [if_pos hguard]
          dsimp only
          rw [ih]
          simp only [Option.map_none']
      · rw [if_neg hguard, if_neg hguard]
        exact ih
  · intro files
    induction files with
    | nil => intro f hf; simp at hf
    | cons g rest ih =>
      intro f hf hglob hself hnone
      rw [List.mem_cons] at hf
      rw [collect_python_scripts]
      rcases hf with hf | hf
      · subst hf
        rw [if_pos (by rw [Bool.and_eq_true]; exact ⟨hglob, by simp [hself]⟩), hnone]
        dsimp only
        exact List.mem_cons_of_mem _ (List.mem_cons_self _ _)
      · have hmem := ih f hf hglob hself hnone
        split
        · split
          · dsimp only
            exact List.mem_cons_of_mem _ (List.mem_cons_of_mem _ hmem)
          · dsimp only
            exact List.mem_cons_of_mem _ (List.mem_cons_of_mem _ hmem)
        · exact hmem

theorem claim_C8_per_file_errors_witness :
    Ev.printErrorReading "bad.py" ∈ (collect_python_scripts
      [⟨"bad.py", none⟩, ⟨"a.py", some ("x".toList)⟩]).2 :=
  claim_C8_per_file_errors.2 [⟨"bad.py", none⟩, ⟨"a.py", some ("x".toList)⟩]
    ⟨"bad.py", none⟩ (by decide) (by decide) (by decide) (by decide)

/-- Claim C9: a run is a deterministic pure function of the directory's
current contents: two runs over identical contents produce the identical
event trace (hence output document text) and identical record lists; the
embedding carries no state across invocations, as the code defines none. -/
theorem claim_C9_deterministic (files1 files2 : List DirFile)
    (h : files1 = files2) :
    mainRun files1 = mainRun files2 ∧
    collect_python_scripts files1 = collect_python_scripts files2 := by
  subst h
  exact ⟨rfl, rfl⟩

theorem claim_C9_deterministic_witness :
    mainRun [⟨"BrowserBox.html", some []⟩] = mainRun [⟨"BrowserBox.html", some []⟩] ∧
    collect_python_scripts [⟨"BrowserBox.html", some []⟩] =
      collect_python_scripts [⟨"BrowserBox.html", some []⟩] :=
  claim_C9_deterministic [⟨"BrowserBox.html", some []⟩]
    [⟨"BrowserBox.html", some []⟩] rfl

/-- Lift a bounded no-match check over all positions: beyond the text length
every suffix is empty and the matcher fails on the empty text. -/
theorem matcherNone_of_bounded (m : List Char → Option (Nat × Nat))
    (hnil : m [] = none) (s : List Char)
    (h : ∀ j, j < s.length → m (s.drop j) = none) :
    ∀ j, m (s.drop j) = none := by
  intro j
  by_cases hj : j < s.length
  · exact h j hj
  · rw [List.drop_eq_nil_of_le (by omega)]
    exact hnil

/-- Lift a bounded once-check: no position other than `i` matches. -/
theorem noneOutside_of_bounded (m : List Char → Option (Nat × Nat))
    (hnil : m [] = none) (s : List Char) (i : Nat)
    (h : ∀ j, j < s.length → j ≠ i → m (s.drop j) = none) :
    ∀ j, j ≠ i → m (s.drop j) = none := by
  intro j hj
  by_cases hlt : j < s.length
  · exact h j hlt hj
  · rw [List.drop_eq_nil_of_le (by omega)]
    exact hnil

/-- Claim C4: a document in which one (or both) anchor patterns are absent
gets the corresponding insertion silently skipped — the pass is the identity
and no error arises — while the output file is still written and the run
still reports success, giving no signal that injected pieces are missing. -/
theorem claim_C4_missing_anchor_silent :
    (∀ (scripts : List ScriptInfo) (doc : List Char),
      (∀ j, matchScriptEnd (doc.drop j) = none) →
      create_embedded_browserbox scripts doc = applyInitSub doc) ∧
    (∀ (scripts : List ScriptInfo) (doc : List Char),
      (∀ j, matchInitAnchor ((applyScriptEndSub scripts doc).drop j) = none) →
      create_embedded_browserbox scripts doc = applyScriptEndSub scripts doc) ∧
    (∀ (files : List DirFile) (tf : DirFile) (html : List Char),
      findFile files inputName = some tf → tf.content = some html →
      (collect_python_scripts files).1 ≠ [] →
      Ev.writeF outputName
          (create_embedded_browserbox (collect_python_scripts files).1 html) ∈
        mainRun files ∧
      Ev.printSuccess outputName ∈ mainRun files) := by
  refine ⟨?_, ?_, ?_⟩
  · intro scripts doc h
    rw [create_embedded_browserbox, applyScriptEndSub, subScan_id _ _ doc h]
  · intro scripts doc h
    rw [create_embedded_browserbox, applyInitSub,
      subScan_id _ _ (applyScriptEndSub scripts doc) h]
  · intro files tf html h1 h2 h3
    have hne : (collect_python_scripts files).1.isEmpty = false := by
      cases hE : (collect_python_scripts files).1 with
      | nil => exact absurd hE h3
      | cons a l => rfl
    have hm : mainRun files = (collect_python_scripts files).2 ++
        [Ev.readF inputName,
         Ev.writeF outputName
           (create_embedded_browserbox (collect_python_scripts files).1 html),
         Ev.printCreated outputName (collect_python_scripts files).1.length,
         Ev.printSuccess outputName] ++
        (collect_python_scripts files).1.map (fun r => Ev.printScriptName r.name) ++
        [Ev.printFinal outputName] := by
      rw [mainRun, h1]
      dsimp only
      rw [if_neg (by simp [hne]), h2]
    rw [hm]
    constructor
    · simp
    · simp

theorem claim_C4_missing_anchor_silent_witness :
    create_embedded_browserbox [] ("<html></html>".toList) =
        applyInitSub ("<html></html>".toList) ∧
    create_embedded_browserbox [] ("<html></html>".toList) =
        applyScriptEndSub [] ("<html></html>".toList) ∧
    Ev.printSuccess outputName ∈ mainRun
      [⟨"BrowserBox.html", some ("<html></html>".toList)⟩,
       ⟨"a.py", some ("x = 1".toList)⟩] := by
  refine ⟨?_, ?_, ?_⟩
  · exact claim_C4_missing_anchor_silent.1 [] ("<html></html>".toList)
      (matcherNone_of_bounded matchScriptEnd matchScriptEnd_nil _ (by decide))
  · exact claim_C4_missing_anchor_silent.2.1 [] ("<html></html>".toList)
      (matcherNone_of_bounded matchInitAnchor matchInitAnchor_nil _ (by decide))
  · exact (claim_C4_missing_anchor_silent.2.2
      [⟨"BrowserBox.html", some ("<html></html>".toList)⟩,
       ⟨"a.py", some ("x = 1".toList)⟩]
      ⟨"BrowserBox.html", some ("<html></html>".toList)⟩
      ("<html></html>".toList) (by decide) rfl (by decide)).2

/-- Claim C1, amended: if the script-end anchor matches at exactly one
position of the document, and the init anchor matches at exactly one
position of the intermediate text produced by the script-end insertion, the
patcher output is the original document with the data-plus-loader block
inserted once and the loader call inserted once, all other bytes unchanged.
The second hypothesis must be about the intermediate text: the first
insertion can destroy the init anchor (or, with adversarial script data,
create a second one), which the original claim overlooks — see the
counterexample. -/
theorem claim_C1_patch_inserts_once_amended (scripts : List ScriptInfo)
    (doc : List Char) (i j : Nat)
    (hA : (matchScriptEnd (doc.drop i)).isSome)
    (hAonce : ∀ k, k ≠ i → matchScriptEnd (doc.drop k) = none)
    (hB : (matchInitAnchor ((applyScriptEndSub scripts doc).drop j)).isSome)
    (hBonce : ∀ k, k ≠ j →
      matchInitAnchor ((applyScriptEndSub scripts doc).drop k) = none) :
    insertedOnceEach scripts doc (create_embedded_browserbox scripts doc) := by
  match hmA : matchScriptEnd (doc.drop i) with
  | none => rw [hmA] at hA; simp at hA
  | some (g1, tot) =>
    obtain ⟨hA1, hA2, hA3⟩ := matchScriptEnd_bounds _ _ _ hmA
    have hinnerA : (doc.drop i).take g1 ++
        (((doc.drop i).drop g1).take (tot - g1) ++ doc.drop (i + tot)) =
        doc.drop i := by
      rw [← List.append_assoc]
      rw [show (doc.drop i).take g1 ++ ((doc.drop i).drop g1).take (tot - g1) =
          (doc.drop i).take tot from by
        conv_rhs => rw [show tot = g1 + (tot - g1) from by omega, List.take_add]]
      rw [show doc.drop (i + tot) = (doc.drop i).drop tot from by rw [List.drop_drop]]
      exact List.take_append_drop _ _
    have hstep1 : applyScriptEndSub scripts doc =
        doc.take i ++ (insAText scripts ++ doc.drop i) := by
      rw [applyScriptEndSub,
        subScan_single matchScriptEnd (replScriptEnd scripts) matchScriptEnd_nil
          i doc g1 tot hAonce hmA hA2]
      simp only [replScriptEnd, List.append_assoc]
      rw [hinnerA]
    match hmB : matchInitAnchor ((applyScriptEndSub scripts doc).drop j) with
    | none => rw [hmB] at hB; simp at hB
    | some (g1', tot') =>
      obtain ⟨hB1, hB2, hB3⟩ := matchInitAnchor_bounds _ _ _ hmB
      have hinnerB : ((applyScriptEndSub scripts doc).drop j).take g1' ++
          ((((applyScriptEndSub scripts doc).drop j).drop g1').take (tot' - g1') ++
            (applyScriptEndSub scripts doc).drop (j + tot')) =
          (applyScriptEndSub scripts doc).drop j := by
        rw [← List.append_assoc]
        rw [show ((applyScriptEndSub scripts doc).drop j).take g1' ++
            (((applyScriptEndSub scripts doc).drop j).drop g1').take (tot' - g1') =
            ((applyScriptEndSub scripts doc).drop j).take tot' from by
          conv_rhs => rw [show tot' = g1' + (tot' - g1') from by omega, List.take_add]]
        rw [show (applyScriptEndSub scripts doc).drop (j + tot') =
            ((applyScriptEndSub scripts doc).drop j).drop tot' from by
          rw [List.drop_drop]]
        exact List.take_append_drop _ _
      have hstep2 : create_embedded_browserbox scripts doc =
          ((applyScriptEndSub scripts doc).take j ++
            ((applyScriptEndSub scripts doc).drop j).take g1') ++ insBText ++
          ((((applyScriptEndSub scripts doc).drop j).drop g1').take (tot' - g1') ++
            (applyScriptEndSub scripts doc).drop (j + tot')) := by
        rw [create_embedded_browserbox, applyInitSub,
          subScan_single matchInitAnchor replInit matchInitAnchor_nil
            j (applyScriptEndSub scripts doc) g1' tot' hBonce hmB hB2]
        simp only [replInit, List.append_assoc]
      refine ⟨doc.take i, doc.drop i,
        (applyScriptEndSub scripts doc).take j ++
          ((applyScriptEndSub scripts doc).drop j).take g1',
        (((applyScriptEndSub scripts doc).drop j).drop g1').take (tot' - g1') ++
          (applyScriptEndSub scripts doc).drop (j + tot'), ?_, ?_, ?_⟩
      · exact (List.take_append_drop i doc).symm
      · have het : ((applyScriptEndSub scripts doc).take j ++
            ((applyScriptEndSub scripts doc).drop j).take g1') ++
            ((((applyScriptEndSub scripts doc).drop j).drop g1').take (tot' - g1') ++
              (applyScriptEndSub scripts doc).drop (j + tot')) =
            applyScriptEndSub scripts doc := by
          rw [List.append_assoc, hinnerB]
          exact List.take_append_drop _ _
        rw [het, hstep1, List.append_assoc]
      · exact hstep2

theorem noMatchOutsideChk_sound (m : List Char → Option (Nat × Nat))
    (hnil : m [] = none) (i : Nat) :
    ∀ (s : List Char) (k : Nat), noMatchOutsideChk m i k s = true →
      ∀ j, k + j ≠ i → m (s.drop j) = none := by
  intro s
  induction s with
  | nil =>
    intro k _ j _
    rw [List.drop_nil]
    exact hnil
  | cons c rest ih =>
    intro k hchk j hj
    rw [noMatchOutsideChk] at hchk
    split at hchk
    · exact absurd hchk (by simp)
    · rename_i hcond
      match j with
      | 0 =>
        rw [List.drop_zero]
        match hm : m (c :: rest) with
        | none => rfl
        | some p =>
          exfalso
          apply hcond
          have h1 : (k == i) = false := beq_false_of_ne (by omega)
          rw [h1, hm]
          rfl
      | j + 1 =>
        rw [List.drop_succ_cons]
        exact ih (k + 1) hchk j (by omega)

set_option maxHeartbeats 16000000 in
set_option maxRecDepth 8000 in
theorem claim_C1_patch_inserts_once_amended_witness :
    insertedOnceEach [sampleScript] docW
      (create_embedded_browserbox [sampleScript] docW) := by
  apply claim_C1_patch_inserts_once_amended [sampleScript] docW 75 8
  · decide
  · exact noneOutside_of_bounded matchScriptEnd matchScriptEnd_nil docW 75 (by decide)
  · decide
  · intro k hk
    exact noMatchOutsideChk_sound matchInitAnchor matchInitAnchor_nil 8
      (applyScriptEndSub [sampleScript] docW) 0 (by decide) k (by omega)

theorem containsSub_append_self (pat t : List Char) :
    containsSub pat (pat ++ t) = true := by
  match hpt : pat ++ t with
  | [] =>
    have hp : pat = [] := (List.append_eq_nil.mp hpt).1
    rw [containsSub, hp]
    rfl
  | c :: r =>
    rw [containsSub, ← hpt]
    rw [if_pos (List.isPrefixOf_iff_prefix.mpr ⟨t, rfl⟩)]

theorem containsSub_of_eq (pat p t s : List Char) (h : s = p ++ (pat ++ t)) :
    containsSub pat s = true := by
  induction p generalizing s with
  | nil =>
    rw [h, List.nil_append]
    exact containsSub_append_self pat t
  | cons c p' ih =>
    rw [h, List.cons_append, containsSub]
    split
    · rfl
    · exact ih (p' ++ (pat ++ t)) rfl

set_option maxHeartbeats 16000000 in
set_option maxRecDepth 8000 in
/-- Claim C1 counterexample: `docCE` contains the script-end anchor exactly
once (at position 19) and the init anchor exactly once (at position 0), yet
the patched output is not the document with the two blocks inserted: the
script-end insertion lands inside the init anchor's brace-free span, the
inserted loader text contains closing braces, so the init anchor no longer
matches and no loader call is inserted at all (the output contains no
occurrence of the loader-call text). -/
theorem claim_C1_counterexample :
    ((matchScriptEnd (docCE.drop 19)).isSome ∧
      ∀ k, k ≠ 19 → matchScriptEnd (docCE.drop k) = none) ∧
    ((matchInitAnchor (docCE.drop 0)).isSome ∧
      ∀ k, k ≠ 0 → matchInitAnchor (docCE.drop k) = none) ∧
    ¬ insertedOnceEach [sampleScript] docCE
        (create_embedded_browserbox [sampleScript] docCE) := by
  refine ⟨⟨by decide, noneOutside_of_bounded matchScriptEnd matchScriptEnd_nil
      docCE 19 (by decide)⟩,
    ⟨by decide, noneOutside_of_bounded matchInitAnchor matchInitAnchor_nil
      docCE 0 (by decide)⟩, ?_⟩
  rintro ⟨d1, d2, e1, e2, h1, h2, h3⟩
  have hcs : containsSub insBText
      (create_embedded_browserbox [sampleScript] docCE) = true :=
    containsSub_of_eq insBText e1 e2 _ (by rw [h3, List.append_assoc])
  exact absurd hcs (by decide)

end BrowserBox
